import Mathlib

/-!
# Website-Downloader: field extraction, link classification, sanitising and encoding

A shallow embedding of `src/lib/extractor.h`.

Conventions of the embedding.

* A C string is the list of its bytes (values `0 .. 255`, as `Nat`) before the
  terminating NUL.  `urlencode` tests for the terminator itself, so its model
  keeps that test.
* C leaves the signedness of `char` to the implementation.  `urlencode` uses a
  `char` as an array index and as a `printf` argument, so its model takes the
  signedness as a parameter `char_signed`.
* Undefined behaviour (an out-of-bounds read, the use of an uninitialised
  pointer, arithmetic on a null pointer) is the result `none`.
* The blocks of `BUFSIZ` bytes in which `urlencode` and `extract_title` build their
  results have their capacity modelled: a result that does not fit is undefined.  The
  other scratch buffers (`current_dir`, `sanitized_link`, `temp`, `regex`, `data`)
  take copies of parts of the input, and their capacity is not modelled.
* The calls made to the database layer are collected, in order, in a list.
* The escaping functions of the store are parameters.  The pattern matcher of the
  library `slre` is a parameter of the functions that call it; models of it for the
  patterns used are given apart and marked as such.
-/

set_option autoImplicit false

namespace WebsiteDownloader

/-! ## Strings and the C library -/

/-- Bytes of a string literal: the content of the C string it denotes. -/
def str (s : String) : List Nat := s.toList.map Char.toNat

/-- Index of the first occurrence of the byte `c`, as `strchr` finds it. -/
def strchr : List Nat → Nat → Option Nat
  | [], _ => none
  | x :: xs, c => if x = c then some 0 else (strchr xs c).map (· + 1)

/-- Index of the last occurrence of the byte `c`, as `strrchr` finds it. -/
def strrchr : List Nat → Nat → Option Nat
  | [], _ => none
  | x :: xs, c =>
    match strrchr xs c with
    | some k => some (k + 1)
    | none => if x = c then some 0 else none

/-- Index of the first occurrence of `needle` in the string, as `strstr` finds it. -/
def strstr : List Nat → List Nat → Option Nat
  | [], needle => if needle = [] then some 0 else none
  | x :: xs, needle =>
    if needle.isPrefixOf (x :: xs) then some 0 else (strstr xs needle).map (· + 1)

/-- The `isalnum` of the C locale. -/
def isalnum (i : Nat) : Bool :=
  (48 ≤ i && i ≤ 57) || (65 ≤ i && i ≤ 90) || (97 ≤ i && i ≤ 122)

/-- The `tolower` of the C locale. -/
def tolower (c : Nat) : Nat := if 65 ≤ c ∧ c ≤ 90 then c + 32 else c

def NOT_VALID_URL : Int := -2

def NOT_LOCAL_URL : Int := -1

def EXIT_SUCCESS : Int := 0

def EXIT_FAILURE : Int := 1

/-! ## is_local_link -/

/-- The function `is_local_link`: `link_head` is the copy of the first four bytes. -/
def is_local_link (link_url : List Nat) : Int :=
  if link_url.length > 0 then
    let link_head := link_url.take 4
    if link_url.head? ≠ some 47 ∧
        (link_url.length > 4 ∧
          (link_head = str "http" ∨ link_head = str "HTTP" ∨
            link_head = str "www." ∨ link_head = str "WWW.")) then
      NOT_LOCAL_URL
    else
      EXIT_SUCCESS
  else
    NOT_VALID_URL

/-! ## validate_link -/

/-- The function `validate_link`: the return code and the link as it is left in place.
Writing a NUL at an index cuts the string there. -/
def validate_link (link : List Nat) : Int × List Nat :=
  if (strchr link 40).isSome ∨ (strchr link 41).isSome then
    (EXIT_FAILURE, link)
  else
    let link1 :=
      match strchr link 35 with
      | some hash_location => link.take hash_location
      | none => link
    let link2 :=
      match strchr link1 63 with
      | some hash_location => link1.take hash_location
      | none => link1
    (EXIT_SUCCESS, link2)

/-- Reference definition of sanitising: reject on a parenthesis, else keep the longest
prefix free of the fragment and query markers. -/
def validate_link_ref (link : List Nat) : Int × List Nat :=
  if 40 ∈ link ∨ 41 ∈ link then (EXIT_FAILURE, link)
  else (EXIT_SUCCESS, link.takeWhile (fun c => c != 35 && c != 63))

/-! ## urlencode -/

/-- Entry `i` of the table filled by the first loop of `regex_link_extractor`. -/
def table_entry (i : Nat) : Nat :=
  if isalnum i ∨ i = 42 ∨ i = 45 ∨ i = 46 ∨ i = 47 ∨ i = 58 ∨ i = 95 then i
  else if i = 32 then 43 else 0

/-- The 256-entry table built by `regex_link_extractor`. -/
def table : List Nat := (List.range 256).map table_entry

/-- Value of a `char` object that holds the byte `b`. -/
def char_value (char_signed : Bool) (b : Nat) : Int :=
  if char_signed ∧ 128 ≤ b then (b : Int) - 256 else (b : Int)

/-- The read `table[i]`: `none` when the index is outside the array. -/
def table_read (tbl : List Nat) (i : Int) : Option Nat :=
  if i < 0 then none else tbl.get? i.toNat

/-- Upper-case hexadecimal digits of a number. -/
def hex_upper (n : Nat) : List Nat := (Nat.toDigits 16 n).map (fun c => c.toUpper.toNat)

/-- Output of `sprintf` for the conversion `%02X`: the argument is read as a 32-bit
unsigned value and padded with zeros to two digits. -/
def sprintf_02X (v : Int) : List Nat :=
  let ds := hex_upper (v % 4294967296).toNat
  List.replicate (2 - ds.length) 48 ++ ds

/-- The macro `BUFSIZ` of `stdio.h`: 8192 with the GNU C library, which the program is
written for. -/
def BUFSIZ : Nat := 8192

/-- The loop of `urlencode` from index `i` of `enc`, a block of `BUFSIZ` bytes that
`memset` has filled with zeros.  A write that leaves no zero byte of the block after
the string is undefined: it runs over the end of the block, or the string returned
has no terminator inside it. -/
def urlencode_loop (char_signed : Bool) (tbl : List Nat) : List Nat → Nat → Option (List Nat)
  | [], _ => some []
  | b :: temp_url, i =>
    if b = 0 then some []
    else
      match table_read tbl (char_value char_signed b) with
      | none => none
      | some t =>
        if t ≠ 0 then
          if i + 1 < BUFSIZ then
            match urlencode_loop char_signed tbl temp_url (i + 1) with
            | none => none
            | some enc => some (t :: enc)
          else none
        else
          if i + (37 :: sprintf_02X (char_value char_signed b)).length < BUFSIZ then
            match urlencode_loop char_signed tbl temp_url
                (i + (37 :: sprintf_02X (char_value char_signed b)).length) with
            | none => none
            | some enc => some (37 :: sprintf_02X (char_value char_signed b) ++ enc)
          else none

/-- The function `urlencode`. -/
def urlencode (char_signed : Bool) (url tbl : List Nat) : Option (List Nat) :=
  urlencode_loop char_signed tbl url 0

/-- Reference encoding of one byte, after the description of the encoder. -/
def percent_encode_byte (b : Nat) : List Nat :=
  if (48 ≤ b ∧ b ≤ 57) ∨ (65 ≤ b ∧ b ≤ 90) ∨ (97 ≤ b ∧ b ≤ 122) ∨ b ∈ str "*-./:_" then [b]
  else if b = 32 then [43]
  else [37, (str "0123456789ABCDEF").getD (b / 16) 0, (str "0123456789ABCDEF").getD (b % 16) 0]

/-- Reference encoding of a string: the concatenation of the encodings of its bytes. -/
def percent_encode (s : List Nat) : List Nat := s.flatMap percent_encode_byte

/-- Value of a hexadecimal digit. -/
def hex_value (c : Nat) : Nat :=
  if 48 ≤ c ∧ c ≤ 57 then c - 48
  else if 65 ≤ c ∧ c ≤ 70 then c - 55
  else if 97 ≤ c ∧ c ≤ 102 then c - 87
  else 0

/-- The standard decoder of the encoded form. -/
def urldecode : List Nat → List Nat
  | [] => []
  | c :: rest =>
    if c = 43 then 32 :: urldecode rest
    else if c = 37 then
      match rest with
      | h :: l :: rest2 => (16 * hex_value h + hex_value l) :: urldecode rest2
      | r => c :: urldecode r
    else c :: urldecode rest

/-- Bytes allowed in a stored link: letters, digits and `* - . / : _ + %`. -/
def storage_safe (b : Nat) : Bool := isalnum b || decide (b ∈ str "*-./:_+%")

/-! ## path_shortener -/

/-- The inner loop of `path_shortener`.  `previous_slash` is `none` as long as the
pointer has not been assigned.  Every round moves `covered` forward, so
`path.length + 1` rounds are never used up. -/
def previous_slash_loop (path : List Nat) (dot_position : Nat) :
    Nat → Nat → Option Nat → Option Nat
  | 0, _, previous_slash => previous_slash
  | fuel + 1, covered, previous_slash =>
    match strstr (path.drop covered) [47] with
    | none => previous_slash
    | some k =>
      let slash := covered + k
      if slash = dot_position then previous_slash
      else previous_slash_loop path dot_position fuel (slash + 1) (some slash)

/-- The outer loop of `path_shortener`.  The two `strcpy` calls leave the bytes before
`previous_slash` followed by the bytes after the three-byte token.  Using the
unassigned `previous_slash` is undefined.  Every round shortens the path, so
`path.length` rounds are never used up. -/
def path_shortener_loop : Nat → List Nat → Option (List Nat)
  | 0, path => some path
  | fuel + 1, path =>
    match strstr path (str "/..") with
    | none => some path
    | some dot_position =>
      match previous_slash_loop path dot_position (path.length + 1) 0 none with
      | none => none
      | some previous_slash =>
        path_shortener_loop fuel (path.take previous_slash ++ path.drop (dot_position + 3))

/-- The function `path_shortener`: the path as it is left in place. -/
def path_shortener (path : List Nat) : Option (List Nat) :=
  path_shortener_loop path.length path

/-! ## regex_link_extractor and link_extractor -/

/-- A call made to the database layer. -/
inductive SinkCall where
  | db_insert_unique_link (id : Int) (link : List Nat)
  | db_insert_external_link (link : List Nat)
  deriving DecidableEq, Repr

/-- The link string passed in a call to the database layer. -/
def SinkCall.target : SinkCall → List Nat
  | .db_insert_unique_link _ link => link
  | .db_insert_external_link link => link

/-- What a call of `slre_match` leaves behind: its return value and `caps[0]`
(`none` for a null `ptr`, else the `len` bytes at `ptr`). -/
structure SlreResult where
  ret : Int
  cap : Option (List Nat)
  deriving DecidableEq, Repr

/-- The calls made by a run, in order, and whether the run stayed defined. -/
structure Run where
  calls : List SinkCall
  defined : Bool
  deriving DecidableEq, Repr

/-- Skipping of the leading spaces and carriage returns of a captured value. -/
def trim_link : List Nat → List Nat
  | [] => []
  | c :: rest => if c = 32 ∨ c = 13 then trim_link rest else c :: rest

/-- The body of the loop of `regex_link_extractor` for one captured value `subpat`:
the calls it makes, or `none` when it runs into undefined behaviour. -/
def regex_link_extractor_body (char_signed : Bool) (id : Int) (tbl current_dir subpat : List Nat) :
    Option (List SinkCall) :=
  let trimmed_link := trim_link subpat
  if is_local_link trimmed_link = 0 then
    let sanitized_link :=
      if trimmed_link.head? ≠ some 47 then current_dir ++ trimmed_link else trimmed_link
    let validated := validate_link sanitized_link
    if validated.1 = 0 then
      let shortened :=
        if (strstr validated.2 (str "..")).isSome then path_shortener validated.2
        else some validated.2
      match shortened with
      | none => none
      | some path =>
        match urlencode char_signed path tbl with
        | none => none
        | some encoded_link => some [SinkCall.db_insert_unique_link id encoded_link]
    else some []
  else
    match urlencode char_signed trimmed_link tbl with
    | none => none
    | some encoded_link => some [SinkCall.db_insert_external_link encoded_link]

/-- The loop of `regex_link_extractor` from offset `j`.  Every round moves `j` forward by
at least one byte, so `markup.length` rounds are never used up. -/
def regex_link_extractor_loop (slre_match : List Nat → List Nat → SlreResult)
    (char_signed : Bool) (id : Int) (regex tbl current_dir markup : List Nat) :
    Nat → Nat → Run
  | 0, _ => ⟨[], true⟩
  | fuel + 1, j =>
    if j < markup.length then
      let r := slre_match regex (markup.drop j)
      if r.ret > 0 then
        let step :=
          match r.cap with
          | some subpat =>
            if subpat.length ≠ 0 then
              regex_link_extractor_body char_signed id tbl current_dir subpat
            else some []
          | none => some []
        match step with
        | none => ⟨[], false⟩
        | some calls =>
          let rest :=
            regex_link_extractor_loop slre_match char_signed id regex tbl current_dir markup
              fuel (j + r.ret.toNat)
          ⟨calls ++ rest.calls, rest.defined⟩
      else ⟨[], true⟩
    else ⟨[], true⟩

/-- The function `regex_link_extractor`.  `current_dir` is the page URL up to and including
its last slash; without a slash the length is computed from a null pointer. -/
def regex_link_extractor (slre_match : List Nat → List Nat → SlreResult)
    (char_signed : Bool) (id : Int) (regex url markup : List Nat) : Run :=
  match strrchr url 47 with
  | none => ⟨[], false⟩
  | some k =>
    regex_link_extractor_loop slre_match char_signed id regex table (url.take (k + 1)) markup
      markup.length 0

/-- The pattern for `href` values. -/
def href_regex : List Nat := str "href=" ++ [34] ++ str "([^" ++ [39, 34] ++ str "<>]+)" ++ [34]

/-- The pattern for `src` values. -/
def src_regex : List Nat := str "src=" ++ [34] ++ str "([^" ++ [39, 34] ++ str "<>]+)" ++ [34]

/-- The function `link_extractor`. -/
def link_extractor (slre_match : List Nat → List Nat → SlreResult)
    (char_signed : Bool) (id : Int) (url markup : List Nat) : Run :=
  let r1 := regex_link_extractor slre_match char_signed id href_regex url markup
  if r1.defined then
    let r2 := regex_link_extractor slre_match char_signed id src_regex url markup
    ⟨r1.calls ++ r2.calls, r2.defined⟩
  else r1

/-! ## The pattern matcher -/

/-- Modelled from the spec: the pattern matcher `slre_match` (the library under `slre/`)
tried at the start of the buffer, for a pattern made of the literal `lit` (compared
without regard to case), a captured run of one or more bytes other than the two
quotes and the angle brackets, and a closing double quote.  Gives the number of bytes
matched and the captured run. -/
def slre_match_here (lit s : List Nat) : Option (Nat × List Nat) :=
  if lit.length ≤ s.length ∧ (s.take lit.length).map tolower = lit.map tolower then
    let tail := s.drop lit.length
    let run := tail.takeWhile (fun c => c != 39 && c != 34 && c != 60 && c != 62)
    if run ≠ [] ∧ (tail.drop run.length).head? = some 34 then
      some (lit.length + run.length + 1, run)
    else none
  else none

/-- Modelled from the spec: the pattern matcher `slre_match` searching the buffer for the
first match of such a pattern.  The return value is the offset just after the match,
or `-1` without a match. -/
def slre_match_attr (lit : List Nat) : List Nat → SlreResult
  | [] => ⟨-1, none⟩
  | c :: s =>
    match slre_match_here lit (c :: s) with
    | some (n, run) => ⟨(n : Int), some run⟩
    | none =>
      let r := slre_match_attr lit s
      if r.ret > 0 then ⟨r.ret + 1, r.cap⟩ else r

/-- Modelled from the spec: the pattern matcher `slre_match` with the option
`SLRE_IGNORE_CASE`, for the two patterns of `link_extractor`. -/
def slre_match (regex buf : List Nat) : SlreResult :=
  if regex = href_regex then slre_match_attr (str "href=" ++ [34]) buf
  else if regex = src_regex then slre_match_attr (str "src=" ++ [34]) buf
  else ⟨-1, none⟩

/-! ## Sample pages -/

/-- The markup of an anchor with the given `href` value. -/
def anchor (href : List Nat) : List Nat := str "<a href=" ++ [34] ++ href ++ [34] ++ str ">"

/-- The markup of an image with the given `src` value. -/
def image (src : List Nat) : List Nat := str "<img src=" ++ [34] ++ src ++ [34] ++ str ">"

/-- A page body with an external link that holds parentheses, a relative image link with
a space, a query and a fragment, and a relative link that holds parentheses. -/
def sample_markup : List Nat :=
  anchor (str "http://x/(a)") ++ image (str " c d.png?x#y") ++ anchor (str "../q(1)")

/-! ## The rounds of the loop of regex_link_extractor -/

/-- The function `extract_title`.  The store escaping `mysql_escape_string` is taken as a
parameter.  A close marker that starts before the seventh byte after the open marker
makes the length passed to `memcpy` negative, which is undefined.  `subpat` and
`escaped_subpat` are blocks of `BUFSIZ` bytes: a title, or an escaped title, that does
not fit its block with its terminator is written past the end of the block, which is
undefined. -/
def extract_title (mysql_escape_string : List Nat → List Nat) (content : List Nat) :
    Option (List Nat) :=
  let pattern_start :=
    match strstr content (str "<title>") with
    | some s => some s
    | none => strstr content (str "<TITLE>")
  let pattern_end :=
    match strstr content (str "</title>") with
    | some e => some e
    | none => strstr content (str "</TITLE>")
  match pattern_start, pattern_end with
  | some s, some e =>
    if s + 7 ≤ e then
      let subpat := (content.drop (s + 7)).take (e - (s + 7))
      if subpat.length < BUFSIZ ∧ (mysql_escape_string subpat).length < BUFSIZ then
        some (mysql_escape_string subpat)
      else none
    else none
  | _, _ => some []

/-- The string `needle` occurs in `body` at offset `i` and at no earlier offset. -/
@[reducible] def first_occurrence (needle body : List Nat) (i : Nat) : Prop :=
  needle <+: body.drop i ∧ ∀ j, j < i → ¬ needle <+: body.drop j

/-- Offset `i` is the earliest offset at which either of the two markers occurs. -/
@[reducible] def earliest_of_either (lower upper body : List Nat) (i : Nat) : Prop :=
  (lower <+: body.drop i ∨ upper <+: body.drop i) ∧
    ∀ j, j < i → ¬ lower <+: body.drop j ∧ ¬ upper <+: body.drop j

/-- Offset `i` is the first occurrence of the lower-case marker, or, when the body has no
lower-case marker, the first occurrence of the upper-case marker. -/
@[reducible] def lower_else_upper (lower upper body : List Nat) (i : Nat) : Prop :=
  first_occurrence lower body i ∨ (¬ lower <:+: body ∧ first_occurrence upper body i)

/-! ## extract_redirect_location -/

/-- The group that captures the rest of a header line: an opening parenthesis, the set of
all bytes but CR and LF, a plus sign and a closing parenthesis. -/
def line_group : List Nat := str "([^" ++ [13, 10] ++ str "]+)"

/-- The function `extract_redirect_location`: `none` is the null pointer.  The pattern is
printed from the host. -/
def extract_redirect_location (slre_match : List Nat → List Nat → SlreResult)
    (header host : List Nat) : Option (List Nat) :=
  let regex := str "Location: http://" ++ host ++ line_group
  let r := slre_match regex header
  if r.ret > 0 then r.cap else none

/-- Modelled from the spec: the pattern matcher `slre_match` on one plain pattern byte and
one byte of the buffer, with the option `SLRE_IGNORE_CASE`: a dot matches every byte,
another byte matches itself in either case. -/
def slre_match_op (re c : Nat) : Bool := re == 46 || tolower re == tolower c

/-- Modelled from the spec: the pattern matcher `slre_match` for a pattern of plain bytes
and dots, tried at the start of the buffer; gives what is left of the buffer. -/
def slre_match_plain : List Nat → List Nat → Option (List Nat)
  | [], s => some s
  | _ :: _, [] => none
  | re :: pat, c :: s => if slre_match_op re c then slre_match_plain pat s else none

/-- Modelled from the spec: the pattern matcher `slre_match` tried at the start of the
buffer, for a pattern of plain bytes and dots followed by the group `line_group`;
gives the number of bytes matched and the captured run, the longest one. -/
def slre_match_here_line (plain s : List Nat) : Option (Nat × List Nat) :=
  match slre_match_plain plain s with
  | none => none
  | some tail =>
    let run := tail.takeWhile (fun c => c != 13 && c != 10)
    if run ≠ [] then some (plain.length + run.length, run) else none

/-- Modelled from the spec: the pattern matcher `slre_match` searching the buffer for the
first match of such a pattern. -/
def slre_match_line (plain : List Nat) : List Nat → SlreResult
  | [] => ⟨-1, none⟩
  | c :: s =>
    match slre_match_here_line plain (c :: s) with
    | some (n, run) => ⟨(n : Int), some run⟩
    | none =>
      let r := slre_match_line plain s
      if r.ret > 0 then ⟨r.ret + 1, r.cap⟩ else r

/-- Modelled from the spec: the pattern matcher `slre_match` with the option
`SLRE_IGNORE_CASE`, for the patterns of `extract_redirect_location`.  The part before
the group is read as plain bytes and dots, which is what it is for a host made of
letters, digits, dots and hyphens. -/
def slre_match_location (regex buf : List Nat) : SlreResult :=
  if line_group.isSuffixOf regex then
    slre_match_line (regex.take (regex.length - line_group.length)) buf
  else ⟨-1, none⟩

/-! ## extract_response_code -/

/-- The `isspace` of the C locale. -/
def isspace (c : Nat) : Bool := c == 32 || (9 ≤ c && c ≤ 13)

/-- The `isdigit` of the C locale. -/
def isdigit (c : Nat) : Bool := 48 ≤ c && c ≤ 57

/-- The digits read by `atoi`, up to the first byte that is not a digit. -/
def atoi_digits (acc : Nat) : List Nat → Nat
  | [] => acc
  | c :: rest => if isdigit c then atoi_digits (10 * acc + (c - 48)) rest else acc

/-- The function `atoi` of the C library: white space, an optional sign, digits.  A value
that an `int` of 32 bits cannot hold is undefined. -/
def atoi (s : List Nat) : Option Int :=
  let v : Int :=
    match s.dropWhile isspace with
    | [] => 0
    | c :: rest =>
      if c = 45 then -((atoi_digits 0 rest : Nat) : Int)
      else if c = 43 then ((atoi_digits 0 rest : Nat) : Int)
      else ((atoi_digits 0 (c :: rest) : Nat) : Int)
  if -2147483648 ≤ v ∧ v ≤ 2147483647 then some v else none

/-- The pattern of `extract_response_code`; byte 92 is the backslash. -/
def status_regex : List Nat :=
  str "HTTP/1[^" ++ [92] ++ str "s]+ ([" ++ [92] ++ str "d]+)"

/-- The function `extract_response_code`. -/
def extract_response_code (slre_match : List Nat → List Nat → SlreResult)
    (header : List Nat) : Option Int :=
  let r := slre_match status_regex header
  if r.ret > 0 then
    match r.cap with
    | some subpat => atoi subpat
    | none => some (-1)
  else some (-1)

/-- Modelled from the spec: the pattern matcher `slre_match` tried at the start of the
buffer for the pattern of `extract_response_code`: `HTTP/1` in either case, the
longest run of one or more bytes that are not white space, one space, and the
captured longest run of one or more digits.  The space of the pattern is white space,
so it can only follow the whole run. -/
def slre_match_here_status (s : List Nat) : Option (Nat × List Nat) :=
  match slre_match_plain (str "HTTP/1") s with
  | none => none
  | some tail =>
    let version := tail.takeWhile (fun c => !isspace c)
    if version ≠ [] then
      match tail.drop version.length with
      | [] => none
      | c :: rest =>
        let digits := rest.takeWhile isdigit
        if c = 32 ∧ digits ≠ [] then some (6 + version.length + 1 + digits.length, digits)
        else none
    else none

/-- Modelled from the spec: the pattern matcher `slre_match` searching the buffer for the
first match of the pattern of `extract_response_code`. -/
def slre_match_status_search : List Nat → SlreResult
  | [] => ⟨-1, none⟩
  | c :: s =>
    match slre_match_here_status (c :: s) with
    | some (n, digits) => ⟨(n : Int), some digits⟩
    | none =>
      let r := slre_match_status_search s
      if r.ret > 0 then ⟨r.ret + 1, r.cap⟩ else r

/-- Modelled from the spec: the pattern matcher `slre_match` with the option
`SLRE_IGNORE_CASE`, for the pattern of `extract_response_code`. -/
def slre_match_status (regex buf : List Nat) : SlreResult :=
  if regex = status_regex then slre_match_status_search buf else ⟨-1, none⟩

/-- The value of a run of decimal digits. -/
def decimal_value (digits : List Nat) : Nat := digits.foldl (fun acc c => 10 * acc + (c - 48)) 0

/-- The header has at offset `i` a match of `HTTP/1`, in either case, then at least
`min_version` bytes that are not white space, one space and the digit run `digits`,
which ends where the digits end. -/
@[reducible] def status_match_at (min_version : Nat) (header : List Nat) (i : Nat)
    (digits : List Nat) : Prop :=
  ∃ head version rest : List Nat,
    header.drop i = head ++ version ++ [32] ++ digits ++ rest ∧
      head.map tolower = (str "HTTP/1").map tolower ∧
      min_version ≤ version.length ∧ (∀ c ∈ version, isspace c = false) ∧
      digits ≠ [] ∧ (∀ c ∈ digits, isdigit c = true) ∧ (∀ c ∈ rest.head?, isdigit c = false)

/-! ## description_extractor -/

/-- The loop of `description_extractor`.  `pattern` is the rest of the body from the
pointer on; `data` is `none` as long as nothing has been written to the buffer, which
`malloc` leaves uninitialised.  Every round moves `pattern` forward, so
`content.length` rounds are never used up. -/
def description_extractor_loop : Nat → List Nat → Option (List Nat) → Option (List Nat)
  | 0, _, data => data
  | fuel + 1, pattern, data =>
    match strstr pattern [10] with
    | none => data
    | some pattern_next =>
      if pattern_next = 0 then description_extractor_loop fuel (pattern.drop 1) data
      else if strstr pattern (str "       ") = some 0 then
        description_extractor_loop fuel (pattern.drop (pattern_next + 1))
          (some (data.getD [] ++ (pattern.drop 7).take (pattern_next - 7)))
      else data

/-- The function `description_extractor`: the outer `none` is undefined behaviour (the
length of a buffer never written is taken), the inner `none` is a return without a
call, and `some (id, tags)` is the call `db_add_tags(connection, id, tags)`.  The
store escaping `mysql_real_escape_string` is taken as a parameter. -/
def description_extractor (mysql_real_escape_string : List Nat → List Nat) (id : Int)
    (content : List Nat) : Option (Option (Int × List Nat)) :=
  match strstr content (str "DESCRIPTION" ++ [10]) with
  | none => some none
  | some k =>
    match description_extractor_loop content.length (content.drop (k + 12)) none with
    | none => none
    | some data =>
      if data.length > 0 then
        some (some (id,
          mysql_real_escape_string (data.map (fun c => if c = 39 ∨ c = 34 then 32 else c))))
      else some none

/-- The text made of newline-terminated lines. -/
def join_lines (lines : List (List Nat)) : List Nat := lines.flatMap (fun l => l ++ [10])

/-- Reference scan of the lines after the marker: a blank line is skipped, a line that
starts with seven spaces gives what follows these seven bytes, any other line ends the
scan.  The result is `none` when no line has been appended. -/
def description_scan : List (List Nat) → Option (List Nat) → Option (List Nat)
  | [], acc => acc
  | line :: rest, acc =>
    if line = [] then description_scan rest acc
    else if (str "       ").isPrefixOf line then
      description_scan rest (some (acc.getD [] ++ line.drop 7))
    else acc

end WebsiteDownloader

namespace WebsiteDownloader

/-! ## Facts about the C library functions -/

theorem strchr_isSome_iff (s : List Nat) (c : Nat) : (strchr s c).isSome ↔ c ∈ s := by
  induction s with
  | nil => simp [strchr]
  | cons x xs ih =>
    by_cases h : x = c
    · simp [strchr, h]
    · have hne : ¬ c = x := fun e => h e.symm
      simp [strchr, h, hne, ← ih]

theorem strchr_eq_none_iff (s : List Nat) (c : Nat) : strchr s c = none ↔ c ∉ s := by
  rw [← strchr_isSome_iff]
  cases strchr s c <;> simp

theorem take_strchr (s : List Nat) (c : Nat) :
    (match strchr s c with
      | some i => s.take i
      | none => s) = s.takeWhile (fun x => x != c) := by
  induction s with
  | nil => simp [strchr]
  | cons x xs ih =>
    by_cases h : x = c
    · simp [strchr, h]
    · simp only [strchr, h, if_false]
      rw [List.takeWhile_cons_of_pos (by simpa using h), ← ih]
      cases strchr xs c <;> simp

theorem takeWhile_takeWhile_ne (s : List Nat) (a b : Nat) :
    (s.takeWhile (fun x => x != a)).takeWhile (fun x => x != b)
      = s.takeWhile (fun x => x != a && x != b) := by
  induction s with
  | nil => simp
  | cons x xs ih =>
    by_cases ha : x = a
    · simp [ha]
    · by_cases hb : x = b
      · subst hb
        simp [List.takeWhile_cons, ha]
      · simp [List.takeWhile_cons, ha, hb, ih]

/-- The kept prefix is the longest prefix free of both markers. -/
theorem takeWhile_longest_prefix (s : List Nat) (a b : Nat) :
    s.takeWhile (fun x => x != a && x != b) <+: s ∧
      a ∉ s.takeWhile (fun x => x != a && x != b) ∧
      b ∉ s.takeWhile (fun x => x != a && x != b) ∧
      ∀ q : List Nat, q <+: s → a ∉ q → b ∉ q →
        q.length ≤ (s.takeWhile (fun x => x != a && x != b)).length := by
  refine ⟨List.takeWhile_prefix _, ?_, ?_, ?_⟩
  · intro h
    have := List.mem_takeWhile_imp h
    simp at this
  · intro h
    have := List.mem_takeWhile_imp h
    simp at this
  · induction s with
    | nil =>
      intro q hq _ _
      simp [List.prefix_nil.mp hq]
    | cons x xs ih =>
      intro q hq ha hb
      cases q with
      | nil => simp
      | cons y ys =>
        obtain ⟨rfl, hys⟩ := List.cons_prefix_cons.mp hq
        have hya : y ≠ a := fun e => ha (by simp [e])
        have hyb : y ≠ b := fun e => hb (by simp [e])
        have hrec := ih ys hys (fun h => ha (List.mem_cons_of_mem _ h))
          (fun h => hb (List.mem_cons_of_mem _ h))
        simp [List.takeWhile_cons, hya, hyb]
        exact hrec

theorem str_dotdot : str "/.." = [47, 46, 46] := by decide

theorem strchr_lt (s : List Nat) (c k : Nat) (h : strchr s c = some k) : k < s.length := by
  induction s generalizing k with
  | nil => simp [strchr] at h
  | cons x xs ih =>
    by_cases hx : x = c
    · simp [strchr, hx] at h
      subst h
      simp
    · simp only [strchr, hx, if_false] at h
      cases hk : strchr xs c with
      | none => simp [hk] at h
      | some k2 =>
        simp [hk] at h
        have := ih k2 hk
        simp
        omega

theorem strchr_get (s : List Nat) (c k : Nat) (h : strchr s c = some k) : s[k]? = some c := by
  induction s generalizing k with
  | nil => simp [strchr] at h
  | cons x xs ih =>
    by_cases hx : x = c
    · simp [strchr, hx] at h
      subst h
      simp [hx]
    · simp only [strchr, hx, if_false] at h
      cases hk : strchr xs c with
      | none => simp [hk] at h
      | some k2 =>
        simp [hk] at h
        subst h
        simpa using ih k2 hk

theorem strchr_first (s : List Nat) (c k : Nat) (h : strchr s c = some k) :
    ∀ j, j < k → s[j]? ≠ some c := by
  induction s generalizing k with
  | nil => simp [strchr] at h
  | cons x xs ih =>
    by_cases hx : x = c
    · simp [strchr, hx] at h
      subst h
      intro j hj
      omega
    · simp only [strchr, hx, if_false] at h
      cases hk : strchr xs c with
      | none => simp [hk] at h
      | some k2 =>
        simp [hk] at h
        subst h
        intro j hj
        cases j with
        | zero => simpa using hx
        | succ j2 => simpa using ih k2 hk j2 (by omega)

theorem strchr_append_of_mem (a b : List Nat) (c : Nat) (h : c ∈ a) :
    strchr (a ++ b) c = strchr a c := by
  induction a with
  | nil => simp at h
  | cons x xs ih =>
    by_cases hx : x = c
    · simp [strchr, hx]
    · have hxs : c ∈ xs := by
        rcases List.mem_cons.mp h with h | h
        · exact absurd h.symm hx
        · exact h
      simp [strchr, hx, ih hxs]

theorem strchr_append_of_not_mem (a b : List Nat) (c : Nat) (h : c ∉ a) :
    strchr (a ++ b) c = (strchr b c).map (· + a.length) := by
  induction a with
  | nil => simp
  | cons x xs ih =>
    have hx : ¬ x = c := fun e => h (by simp [e])
    have hxs : c ∉ xs := fun e => h (List.mem_cons_of_mem _ e)
    rw [List.cons_append, strchr, if_neg hx, ih hxs]
    cases strchr b c <;> simp [Nat.add_assoc]

theorem strstr_single (s : List Nat) (c : Nat) : strstr s [c] = strchr s c := by
  induction s with
  | nil => simp [strstr, strchr]
  | cons x xs ih =>
    by_cases hx : x = c
    · simp [strstr, strchr, hx, List.isPrefixOf]
    · have hc : ¬ c = x := fun e => hx e.symm
      simp [strstr, strchr, hx, hc, List.isPrefixOf, ih]

theorem strstr_eq_none_iff (s needle : List Nat) :
    strstr s needle = none ↔ ¬ needle <:+: s := by
  induction s with
  | nil =>
    by_cases hn : needle = []
    · simp [strstr, hn]
    · simp [strstr, hn]
  | cons x xs ih =>
    rw [List.infix_cons_iff, strstr]
    by_cases hp : needle.isPrefixOf (x :: xs) = true
    · have hp2 : needle <+: x :: xs := List.isPrefixOf_iff_prefix.mp hp
      simp [hp, hp2]
    · have hp2 : ¬ needle <+: x :: xs := fun e => hp (List.isPrefixOf_iff_prefix.mpr e)
      simp only [hp, hp2, false_or, Bool.false_eq_true, if_false, ← ih]
      cases strstr xs needle <;> simp

theorem strstr_prefix_drop (s needle : List Nat) (d : Nat) (h : strstr s needle = some d) :
    needle <+: s.drop d := by
  induction s generalizing d with
  | nil =>
    by_cases hn : needle = []
    · simp [hn]
    · simp [strstr, hn] at h
  | cons x xs ih =>
    rw [strstr] at h
    by_cases hp : needle.isPrefixOf (x :: xs) = true
    · simp [hp] at h
      subst h
      simpa using List.isPrefixOf_iff_prefix.mp hp
    · simp only [hp, Bool.false_eq_true, if_false] at h
      cases hk : strstr xs needle with
      | none => simp [hk] at h
      | some k =>
        simp [hk] at h
        subst h
        simpa using ih k hk

/-- The first occurrence of the token `/..` after a part that has none. -/
theorem strstr_dotdot_append (X R : List Nat) (h : ¬ str "/.." <:+: X) :
    strstr (X ++ str "/.." ++ R) (str "/..") = some X.length := by
  rw [str_dotdot] at h ⊢
  induction X with
  | nil => simp [strstr, List.isPrefixOf]
  | cons x xs ih =>
    have hxs : ¬ [47, 46, 46] <:+: xs := fun e => h (List.infix_cons e)
    have hnp : List.isPrefixOf [47, 46, 46] (x :: xs ++ [47, 46, 46] ++ R) = false := by
      rcases xs with _ | ⟨y, _ | ⟨z, zs⟩⟩
      · simp [List.isPrefixOf]
      · simp [List.isPrefixOf]
      · by_contra hc
        simp [List.isPrefixOf] at hc
        obtain ⟨h1, h2, h3⟩ := hc
        subst h1 h2 h3
        exact h ⟨[], zs, by simp⟩
    simp only [List.cons_append] at hnp ⊢
    rw [strstr, hnp]
    simp only [Bool.false_eq_true, if_false]
    have := ih hxs
    simp only [List.append_assoc] at this ⊢
    rw [this]
    simp

/-! ## is_local_link -/

/-- The comparison of the head is not free of case: a link whose head is `Http`, equal
to `http` when case is ignored, is longer than 4 bytes and does not start with a
slash, yet is not classified as external. -/
theorem is_local_link_mixed_case_not_external :
    ¬ (∀ link : List Nat, link.length > 4 → link.head? ≠ some 47 →
        ((link.take 4).map tolower = str "http" ∨ (link.take 4).map tolower = str "www.") →
        is_local_link link = NOT_LOCAL_URL) := by
  intro h
  have hx := h (str "Http://x") (by decide) (by decide) (by decide)
  revert hx
  decide

/-- The four heads that the code compares with: a link longer than 4 bytes that does not
start with a slash and whose first four bytes are exactly `http`, `HTTP`, `www.` or
`WWW.` is classified as external (`NOT_LOCAL_URL`). -/
theorem is_local_link_external (link : List Nat) (hlen : link.length > 4)
    (hslash : link.head? ≠ some 47)
    (hhead : link.take 4 = str "http" ∨ link.take 4 = str "HTTP" ∨
      link.take 4 = str "www." ∨ link.take 4 = str "WWW.") :
    is_local_link link = NOT_LOCAL_URL := by
  have hpos : link.length > 0 := by omega
  unfold is_local_link
  rw [if_pos hpos]
  exact if_pos ⟨hslash, hlen, hhead⟩

theorem is_local_link_external_witness :
    is_local_link (str "WWW.example.org/a") = NOT_LOCAL_URL :=
  is_local_link_external (str "WWW.example.org/a") (by decide) (by decide) (by decide)

/-- C4 (as stated, refuted): the empty link does not start with a slash and is shorter
than 5 bytes, and it is classified as invalid, not as local. -/
theorem is_local_link_empty_not_local :
    ¬ (∀ link : List Nat, link.head? ≠ some 47 → link.length < 5 →
        is_local_link link = EXIT_SUCCESS) := by
  intro h
  have hx := h [] (by decide) (by decide)
  revert hx
  decide

/-- C4 (amended): every non-empty link that does not start with a slash and is shorter
than 5 bytes is classified as local (`EXIT_SUCCESS`). -/
theorem is_local_link_short (link : List Nat) (hne : link ≠ [])
    (_hslash : link.head? ≠ some 47) (hlen : link.length < 5) :
    is_local_link link = EXIT_SUCCESS := by
  have hpos : link.length > 0 := List.length_pos.mpr hne
  unfold is_local_link
  rw [if_pos hpos]
  apply if_neg
  rintro ⟨_, h4, _⟩
  omega

theorem is_local_link_short_witness : is_local_link (str "http") = EXIT_SUCCESS :=
  is_local_link_short (str "http") (by decide) (by decide) (by decide)

/-- C5: the classification of the six sample links. -/
theorem is_local_link_samples :
    is_local_link (str "http://x") = NOT_LOCAL_URL ∧
      is_local_link (str "HTTP://x") = NOT_LOCAL_URL ∧
      is_local_link (str "www.x") = NOT_LOCAL_URL ∧
      is_local_link (str "WWW.x") = NOT_LOCAL_URL ∧
      is_local_link (str "/a/b") = EXIT_SUCCESS ∧
      is_local_link (str "") = NOT_VALID_URL := by
  decide

/-! ## validate_link -/

/-- C6: `validate_link` agrees with the reference definition on every link, the prefix
kept by the reference definition is the longest prefix free of `#` and `?`, and the
two sample links behave as stated. -/
theorem validate_link_eq_ref :
    (∀ link : List Nat, validate_link link = validate_link_ref link) ∧
      (∀ link : List Nat,
        link.takeWhile (fun c => c != 35 && c != 63) <+: link ∧
          35 ∉ link.takeWhile (fun c => c != 35 && c != 63) ∧
          63 ∉ link.takeWhile (fun c => c != 35 && c != 63) ∧
          ∀ q : List Nat, q <+: link → 35 ∉ q → 63 ∉ q →
            q.length ≤ (link.takeWhile (fun c => c != 35 && c != 63)).length) ∧
      validate_link (str "a(b)") = (EXIT_FAILURE, str "a(b)") ∧
      validate_link (str "a?x=1#frag") = (EXIT_SUCCESS, str "a") := by
  refine ⟨?_, fun link => takeWhile_longest_prefix link 35 63, by decide, by decide⟩
  intro link
  unfold validate_link validate_link_ref
  by_cases hp : 40 ∈ link ∨ 41 ∈ link
  · have hp2 : (strchr link 40).isSome ∨ (strchr link 41).isSome := by
      simpa [strchr_isSome_iff] using hp
    rw [if_pos hp, if_pos hp2]
  · have hp2 : ¬ ((strchr link 40).isSome ∨ (strchr link 41).isSome) := by
      simpa [strchr_isSome_iff] using hp
    rw [if_neg hp, if_neg hp2]
    simp only []
    rw [take_strchr link 35, take_strchr _ 63, takeWhile_takeWhile_ne]

/-! ## urlencode -/

theorem table_get (i : Nat) (h : i < 256) : table.get? i = some (table_entry i) := by
  simp [table, List.getElem?_map, List.getElem?_range h]

theorem table_get_none (i : Nat) (h : 256 ≤ i) : table.get? i = none := by
  simp [table, h]

/-- A successful read of the table is a read of an entry `0 .. 255`. -/
theorem table_read_some (v : Int) (t : Nat) (h : table_read table v = some t) :
    ∃ i : Nat, i < 256 ∧ v = (i : Int) ∧ t = table_entry i := by
  unfold table_read at h
  by_cases hv : v < 0
  · simp [hv] at h
  · rw [if_neg hv] at h
    by_cases hi : v.toNat < 256
    · rw [table_get _ hi] at h
      exact ⟨v.toNat, hi, by omega, by simpa using h.symm⟩
    · rw [table_get_none _ (by omega)] at h
      cases h

theorem char_value_of_lt (char_signed : Bool) (b : Nat)
    (h : char_signed = true → b < 128) : char_value char_signed b = (b : Int) := by
  unfold char_value
  apply if_neg
  rintro ⟨hs, hb⟩
  have := h hs
  omega

set_option maxRecDepth 100000 in
theorem encode_entry_eq (i : Fin 256) :
    (if table_entry i.val ≠ 0 then [table_entry i.val]
      else 37 :: sprintf_02X (i.val : Int)) = percent_encode_byte i.val := by
  revert i
  decide

set_option maxRecDepth 100000 in
theorem encode_entry_safe (i : Fin 256) :
    (table_entry i.val ≠ 0 → storage_safe (table_entry i.val) = true) ∧
      ∀ x ∈ sprintf_02X (i.val : Int), storage_safe x = true := by
  revert i
  decide

/-- One round of the loop of `urlencode` on a byte that the table covers. -/
theorem urlencode_loop_cons (char_signed : Bool) (b : Nat) (rest : List Nat) (i : Nat)
    (h0 : b ≠ 0) (h256 : b < 256) (hs : char_signed = true → b < 128) :
    urlencode_loop char_signed table (b :: rest) i
      = if i + (percent_encode_byte b).length < BUFSIZ then
          (urlencode_loop char_signed table rest (i + (percent_encode_byte b).length)).map
            (fun enc => percent_encode_byte b ++ enc)
        else none := by
  have hv := char_value_of_lt char_signed b hs
  have hr : table_read table (b : Int) = some (table_entry b) := by
    unfold table_read
    rw [if_neg (by omega)]
    simpa using table_get b h256
  have he := encode_entry_eq ⟨b, h256⟩
  simp only [] at he
  rw [urlencode_loop, if_neg h0, hv, hr]
  simp only []
  by_cases ht : table_entry b ≠ 0
  · rw [if_pos ht] at he
    rw [if_pos ht, ← he]
    simp only [List.length_singleton]
    by_cases hfit : i + 1 < BUFSIZ
    · rw [if_pos hfit, if_pos hfit]
      cases urlencode_loop char_signed table rest (i + 1) <;> rfl
    · rw [if_neg hfit, if_neg hfit]
  · rw [if_neg ht] at he
    rw [if_neg ht, ← he]
    by_cases hfit : i + (37 :: sprintf_02X (b : Int)).length < BUFSIZ
    · rw [if_pos hfit, if_pos hfit]
      cases urlencode_loop char_signed table rest
        (i + (37 :: sprintf_02X (b : Int)).length) <;> rfl
    · rw [if_neg hfit, if_neg hfit]

theorem percent_encode_cons (b : Nat) (rest : List Nat) :
    percent_encode (b :: rest) = percent_encode_byte b ++ percent_encode rest := by
  simp [percent_encode]

/-- On the bytes that the table covers the loop of `urlencode` writes the reference
encoding, when the encoding and its terminator fit the block. -/
theorem urlencode_loop_fits (char_signed : Bool) :
    ∀ (s : List Nat) (i : Nat),
      (∀ b ∈ s, b ≠ 0 ∧ b < 256 ∧ (char_signed = true → b < 128)) →
      i + (percent_encode s).length < BUFSIZ →
      urlencode_loop char_signed table s i = some (percent_encode s) := by
  intro s
  induction s with
  | nil => intro i _ _; rfl
  | cons b rest ih =>
    intro i h hfit
    obtain ⟨h0, h256, hs⟩ := h b (by simp)
    rw [percent_encode_cons, List.length_append] at hfit
    rw [urlencode_loop_cons char_signed b rest i h0 h256 hs, if_pos (by omega),
      ih _ (fun x hx => h x (List.mem_cons_of_mem _ hx)) (by omega), percent_encode_cons]
    rfl

/-- What the loop of `urlencode` returns on bytes that the table covers is the reference
encoding, and it fits the block with its terminator. -/
theorem urlencode_loop_some (char_signed : Bool) :
    ∀ (s : List Nat) (i : Nat) (enc : List Nat),
      (∀ b ∈ s, b ≠ 0 ∧ b < 256 ∧ (char_signed = true → b < 128)) →
      urlencode_loop char_signed table s i = some enc →
      enc = percent_encode s ∧ (s ≠ [] → i + enc.length < BUFSIZ) := by
  intro s
  induction s with
  | nil =>
    intro i enc _ h
    simp [urlencode_loop] at h
    subst h
    exact ⟨rfl, fun hne => absurd rfl hne⟩
  | cons b rest ih =>
    intro i enc h henc
    obtain ⟨h0, h256, hs⟩ := h b (by simp)
    rw [urlencode_loop_cons char_signed b rest i h0 h256 hs] at henc
    by_cases hfit : i + (percent_encode_byte b).length < BUFSIZ
    · rw [if_pos hfit] at henc
      cases hrest : urlencode_loop char_signed table rest
          (i + (percent_encode_byte b).length) with
      | none => simp [hrest] at henc
      | some enc2 =>
        rw [hrest] at henc
        simp only [Option.map_some', Option.some.injEq] at henc
        obtain ⟨he2, hlen2⟩ := ih _ enc2 (fun x hx => h x (List.mem_cons_of_mem _ hx)) hrest
        subst henc
        refine ⟨by rw [percent_encode_cons, he2], fun _ => ?_⟩
        rw [List.length_append]
        by_cases hr : rest = []
        · subst hr
          simp [percent_encode] at he2
          subst he2
          simpa using hfit
        · have := hlen2 hr
          omega
    · rw [if_neg hfit] at henc
      cases henc

/-- On the bytes that the table covers `urlencode` is the reference encoding, when the
encoding and its terminator fit the block of `BUFSIZ` bytes. -/
theorem urlencode_eq_percent_encode (char_signed : Bool) (s : List Nat)
    (h : ∀ b ∈ s, b ≠ 0 ∧ b < 256 ∧ (char_signed = true → b < 128))
    (hfit : (percent_encode s).length < BUFSIZ) :
    urlencode char_signed s table = some (percent_encode s) :=
  urlencode_loop_fits char_signed s 0 h (by omega)

/-- On the bytes that the table covers `urlencode` is undefined when the encoding and
its terminator do not fit the block of `BUFSIZ` bytes. -/
theorem urlencode_eq_none (char_signed : Bool) (s : List Nat)
    (h : ∀ b ∈ s, b ≠ 0 ∧ b < 256 ∧ (char_signed = true → b < 128))
    (hfit : BUFSIZ ≤ (percent_encode s).length) :
    urlencode char_signed s table = none := by
  cases henc : urlencode char_signed s table with
  | none => rfl
  | some enc =>
    obtain ⟨he, hlen⟩ := urlencode_loop_some char_signed s 0 enc h henc
    have hne : s ≠ [] := by
      intro e
      subst e
      simp [percent_encode, BUFSIZ] at hfit
    have := hlen hne
    rw [he] at this
    omega

theorem urlencode_loop_storage_safe (char_signed : Bool) :
    ∀ (s : List Nat) (i : Nat) (enc : List Nat),
      urlencode_loop char_signed table s i = some enc → ∀ x ∈ enc, storage_safe x = true := by
  intro s
  induction s with
  | nil =>
    intro i enc h
    simp [urlencode_loop] at h
    subst h
    simp
  | cons b rest ih =>
    intro i enc h
    rw [urlencode_loop] at h
    by_cases h0 : b = 0
    · rw [if_pos h0] at h
      simp at h
      subst h
      simp
    · rw [if_neg h0] at h
      cases hr : table_read table (char_value char_signed b) with
      | none => simp [hr] at h
      | some t =>
        obtain ⟨k, hk, hvk, htk⟩ := table_read_some _ _ hr
        rw [hr] at h
        simp only [] at h
        have hsafe := encode_entry_safe ⟨k, hk⟩
        simp only [] at hsafe
        by_cases ht : t ≠ 0
        · rw [if_pos ht] at h
          by_cases hfit : i + 1 < BUFSIZ
          · rw [if_pos hfit] at h
            cases hrest : urlencode_loop char_signed table rest (i + 1) with
            | none =>
              rw [hrest] at h
              cases h
            | some enc2 =>
              rw [hrest] at h
              simp only [Option.some.injEq] at h
              subst h
              intro x hx
              rcases List.mem_cons.mp hx with hx | hx
              · rw [hx, htk]
                exact hsafe.1 (htk ▸ ht)
              · exact ih _ enc2 hrest x hx
          · rw [if_neg hfit] at h
            cases h
        · rw [if_neg ht] at h
          by_cases hfit : i + (37 :: sprintf_02X (char_value char_signed b)).length < BUFSIZ
          · rw [if_pos hfit] at h
            cases hrest : urlencode_loop char_signed table rest
                (i + (37 :: sprintf_02X (char_value char_signed b)).length) with
            | none =>
              rw [hrest] at h
              cases h
            | some enc2 =>
              rw [hrest] at h
              simp only [Option.some.injEq] at h
              subst h
              intro x hx
              rcases List.mem_cons.mp hx with hx | hx
              · rw [hx]
                decide
              · rcases List.mem_append.mp hx with hx | hx
                · rw [hvk] at hx
                  exact hsafe.2 x hx
                · exact ih _ enc2 hrest x hx
          · rw [if_neg hfit] at h
            cases h

/-- Every byte that `urlencode` writes with the table of `regex_link_extractor`, when it
is defined, is a letter, a digit or one of `* - . / : _ + %`. -/
theorem urlencode_storage_safe (char_signed : Bool) (s enc : List Nat)
    (h : urlencode char_signed s table = some enc) : ∀ x ∈ enc, storage_safe x = true :=
  urlencode_loop_storage_safe char_signed s 0 enc h

/-- C9 (the code at the failing input): where `char` is signed the byte `0xE9` is the
value `-23`, the read `table[-23]` lies before the array, and `%02X` of `-23` prints
eight digits, while the stated encoding of the byte is `%E9`.  Where `char` is
unsigned the code gives `%E9`. -/
theorem urlencode_signed_char_high_byte :
    char_value true 233 = -23 ∧
      table_read table (char_value true 233) = none ∧
      urlencode true [233] table = none ∧
      sprintf_02X (char_value true 233) = str "FFFFFFE9" ∧
      percent_encode [233] = str "%E9" ∧
      urlencode false [233] table = some (str "%E9") := by
  decide

theorem urldecode_plus (rest : List Nat) : urldecode (43 :: rest) = 32 :: urldecode rest := by
  rcases rest with _ | ⟨h, _ | ⟨l, r⟩⟩ <;> simp [urldecode]

theorem urldecode_plain (c : Nat) (rest : List Nat) (h43 : c ≠ 43) (h37 : c ≠ 37) :
    urldecode (c :: rest) = c :: urldecode rest := by
  rcases rest with _ | ⟨h, _ | ⟨l, r⟩⟩ <;> simp [urldecode, h43, h37]

theorem urldecode_percent (h l : Nat) (rest : List Nat) :
    urldecode (37 :: h :: l :: rest) = (16 * hex_value h + hex_value l) :: urldecode rest := by
  simp [urldecode]

set_option maxRecDepth 100000 in
/-- The reference encoding of a printable byte is the byte itself (neither `+` nor `%`),
or `+` for the space, or `%` and two digits whose value is the byte. -/
theorem percent_encode_byte_shape (b : Fin 127) (hlo : 32 ≤ b.val) :
    (percent_encode_byte b.val = [b.val] ∧ b.val ≠ 43 ∧ b.val ≠ 37) ∨
      (percent_encode_byte b.val = [43] ∧ b.val = 32) ∨
      (percent_encode_byte b.val
          = [37, (str "0123456789ABCDEF").getD (b.val / 16) 0,
              (str "0123456789ABCDEF").getD (b.val % 16) 0] ∧
        16 * hex_value ((str "0123456789ABCDEF").getD (b.val / 16) 0)
          + hex_value ((str "0123456789ABCDEF").getD (b.val % 16) 0) = b.val) := by
  revert b
  decide

/-- Decoding gives back a printable byte from its reference encoding. -/
theorem urldecode_percent_encode_byte (b : Nat) (hlo : 32 ≤ b) (hhi : b ≤ 126)
    (rest : List Nat) :
    urldecode (percent_encode_byte b ++ rest) = b :: urldecode rest := by
  have hshape := percent_encode_byte_shape ⟨b, by omega⟩ hlo
  simp only [] at hshape
  rcases hshape with ⟨he, h43, h37⟩ | ⟨he, h32⟩ | ⟨he, hval⟩
  · rw [he]
    exact urldecode_plain b rest h43 h37
  · rw [he, h32]
    exact urldecode_plus rest
  · rw [he]
    exact (urldecode_percent _ _ rest).trans (by rw [hval])

theorem urldecode_percent_encode (s : List Nat) (h : ∀ b ∈ s, 32 ≤ b ∧ b ≤ 126) :
    urldecode (percent_encode s) = s := by
  induction s with
  | nil => rfl
  | cons b rest ih =>
    have hb := h b (by simp)
    have : percent_encode (b :: rest) = percent_encode_byte b ++ percent_encode rest := by
      simp [percent_encode]
    rw [this, urldecode_percent_encode_byte b hb.1 hb.2,
      ih (fun x hx => h x (List.mem_cons_of_mem _ hx))]

/-- On strings of printable ASCII bytes (`0x20 .. 0x7E`) whose encoding fits the block
of `BUFSIZ` bytes with its terminator, `urlencode` returns an encoded form from which
the standard decoder recovers the string, and it is injective. -/
theorem urlencode_injective_printable (char_signed : Bool) (s1 s2 : List Nat)
    (h1 : ∀ b ∈ s1, 32 ≤ b ∧ b ≤ 126) (h2 : ∀ b ∈ s2, 32 ≤ b ∧ b ≤ 126)
    (hfit : (percent_encode s1).length < BUFSIZ) :
    (∃ enc, urlencode char_signed s1 table = some enc ∧ urldecode enc = s1) ∧
      (urlencode char_signed s1 table = urlencode char_signed s2 table → s1 = s2) := by
  have e1 : urlencode char_signed s1 table = some (percent_encode s1) :=
    urlencode_eq_percent_encode char_signed s1
      (fun b hb => ⟨by have := h1 b hb; omega, by have := h1 b hb; omega,
        fun _ => by have := h1 b hb; omega⟩) hfit
  refine ⟨⟨percent_encode s1, e1, urldecode_percent_encode s1 h1⟩, ?_⟩
  intro heq
  rw [e1] at heq
  obtain ⟨hpe, _⟩ := urlencode_loop_some char_signed s2 0 (percent_encode s1)
    (fun b hb => ⟨by have := h2 b hb; omega, by have := h2 b hb; omega,
      fun _ => by have := h2 b hb; omega⟩) heq.symm
  rw [← urldecode_percent_encode s1 h1, ← urldecode_percent_encode s2 h2, hpe]

set_option maxRecDepth 100000 in
theorem urlencode_injective_printable_witness :
    (∃ enc, urlencode true (str "/a b+c%2B?x=(1)") table = some enc ∧
        urldecode enc = str "/a b+c%2B?x=(1)") ∧
      (urlencode true (str "/a b+c%2B?x=(1)") table = urlencode true (str "/a+b+c%2B?x=(1)") table →
        str "/a b+c%2B?x=(1)" = str "/a+b+c%2B?x=(1)") :=
  urlencode_injective_printable true (str "/a b+c%2B?x=(1)") (str "/a+b+c%2B?x=(1)")
    (by decide) (by decide) (by decide)

theorem percent_encode_replicate_paren (n : Nat) :
    (percent_encode (List.replicate n 40)).length = 3 * n := by
  induction n with
  | zero => rfl
  | succ n ih =>
    have hb : percent_encode_byte 40 = [37, 50, 56] := by decide
    rw [List.replicate_succ, percent_encode_cons, List.length_append, ih, hb]
    simp only [List.length_cons, List.length_nil]
    omega

/-- C10 (the code at the failing input): the string of 3000 bytes `(` is printable, its
encoding has 9000 bytes, more than the block of `BUFSIZ` bytes of `enc` can hold, and
`urlencode` writes past the end of the block: no encoded form is returned from which
the string could be recovered. -/
theorem urlencode_long_string_overruns (char_signed : Bool) :
    (∀ b ∈ List.replicate 3000 40, 32 ≤ b ∧ b ≤ 126) ∧
      (percent_encode (List.replicate 3000 40)).length = 9000 ∧
      BUFSIZ = 8192 ∧
      urlencode char_signed (List.replicate 3000 40) table = none := by
  have hmem : ∀ b ∈ List.replicate 3000 40, b = 40 := fun b hb => (List.mem_replicate.mp hb).2
  refine ⟨fun b hb => by rw [hmem b hb]; decide, percent_encode_replicate_paren 3000, rfl, ?_⟩
  apply urlencode_eq_none
  · intro b hb
    rw [hmem b hb]
    exact ⟨by decide, by decide, fun _ => by decide⟩
  · rw [percent_encode_replicate_paren]
    decide

/-! ## path_shortener -/

/-- The last round of the inner loop: from just after the parent slash the next slash
is the one of the token, and the loop ends. -/
theorem previous_slash_loop_last (P S T : List Nat) (hS : 47 ∉ S) (fuel : Nat)
    (prev : Option Nat) :
    previous_slash_loop (P ++ 47 :: (S ++ 47 :: T)) (P.length + 1 + S.length) (fuel + 1)
      (P.length + 1) prev = prev := by
  have hdrop : (P ++ 47 :: (S ++ 47 :: T)).drop (P.length + 1) = S ++ 47 :: T := by
    rw [List.drop_append_eq_append_drop]
    simp
  rw [previous_slash_loop, hdrop, strstr_single, strchr_append_of_not_mem _ _ _ hS]
  simp [strchr, Nat.add_assoc]

/-- The inner loop stops with `previous_slash` at the slash that opens the segment
before the token. -/
theorem previous_slash_loop_parent (P S T : List Nat) (hS : 47 ∉ S) :
    ∀ (fuel covered : Nat) (prev : Option Nat), covered ≤ P.length →
      P.length - covered + 2 ≤ fuel →
      previous_slash_loop (P ++ 47 :: (S ++ 47 :: T)) (P.length + 1 + S.length) fuel
        covered prev = some P.length := by
  intro fuel
  induction fuel with
  | zero => intro covered prev _ h; omega
  | succ fuel ih =>
    intro covered prev hc hf
    have hdrop : (P ++ 47 :: (S ++ 47 :: T)).drop covered
        = P.drop covered ++ 47 :: (S ++ 47 :: T) := by
      rw [List.drop_append_eq_append_drop]
      have : covered - P.length = 0 := by omega
      simp [this]
    rw [previous_slash_loop, hdrop, strstr_single]
    by_cases hm : 47 ∈ P.drop covered
    · rw [strchr_append_of_mem _ _ _ hm]
      cases hk : strchr (P.drop covered) 47 with
      | none => exact absurd hm ((strchr_eq_none_iff _ _).mp hk)
      | some k =>
        have hlt := strchr_lt _ _ _ hk
        simp only [List.length_drop] at hlt
        have hne : ¬ covered + k = P.length + 1 + S.length := by omega
        simp only [hne, if_false]
        exact ih (covered + k + 1) _ (by omega) (by omega)
    · rw [strchr_append_of_not_mem _ _ _ hm]
      simp only [strchr, if_true, Option.map_some', List.length_drop]
      have hne : ¬ covered + (0 + (P.length - covered)) = P.length + 1 + S.length := by omega
      have hcov : covered + (0 + (P.length - covered)) = P.length := by omega
      simp only [hne, if_false]
      rw [hcov]
      cases fuel with
      | zero => omega
      | succ f => exact previous_slash_loop_last P S T hS f _

/-- The pointer `previous_slash`, once assigned, lies before the token. -/
theorem previous_slash_loop_lt (path : List Nat) (d : Nat) (hd : path[d]? = some 47) :
    ∀ (fuel covered : Nat) (prev : Option Nat) (p : Nat), covered ≤ d →
      (∀ p0, prev = some p0 → p0 < d) →
      previous_slash_loop path d fuel covered prev = some p → p < d := by
  intro fuel
  induction fuel with
  | zero =>
    intro covered prev p _ hprev h
    exact hprev p (by simpa [previous_slash_loop] using h)
  | succ fuel ih =>
    intro covered prev p hc hprev h
    rw [previous_slash_loop, strstr_single] at h
    cases hk : strchr (path.drop covered) 47 with
    | none =>
      rw [hk] at h
      exact hprev p h
    | some k =>
      rw [hk] at h
      simp only [] at h
      by_cases hs : covered + k = d
      · rw [if_pos hs] at h
        exact hprev p h
      · rw [if_neg hs] at h
        have hle : covered + k ≤ d := by
          by_contra hgt
          have hfirst := strchr_first _ _ _ hk (d - covered) (by omega)
          apply hfirst
          rw [List.getElem?_drop]
          have : covered + (d - covered) = d := by omega
          rw [this]
          exact hd
        exact ih (covered + k + 1) (some (covered + k)) p (by omega)
          (fun p0 hp0 => by
            have : covered + k = p0 := by simpa using hp0
            omega) h

theorem strstr_dotdot_get (path : List Nat) (d : Nat)
    (h : strstr path (str "/..") = some d) : path[d]? = some 47 ∧ d + 3 ≤ path.length := by
  have hp := strstr_prefix_drop _ _ _ h
  rw [str_dotdot] at hp
  obtain ⟨t, ht⟩ := hp
  have hlen : (path.drop d).length = 3 + t.length := by
    rw [← ht]
    simp only [List.length_append, List.length_cons, List.length_nil]
  have h0 : (path.drop d)[0]? = some 47 := by
    rw [← ht]
    simp
  rw [List.getElem?_drop] at h0
  simp only [List.length_drop] at hlen
  exact ⟨by simpa using h0, by omega⟩

/-- One round of the outer loop shortens the path. -/
theorem path_shortener_round_length (path : List Nat) (d p : Nat)
    (hd : strstr path (str "/..") = some d)
    (hp : previous_slash_loop path d (path.length + 1) 0 none = some p) :
    (path.take p ++ path.drop (d + 3)).length < path.length := by
  obtain ⟨hget, hlen⟩ := strstr_dotdot_get path d hd
  have hlt := previous_slash_loop_lt path d hget _ 0 none p (Nat.zero_le _)
    (fun p0 h0 => by cases h0) hp
  simp only [List.length_append, List.length_take, List.length_drop]
  omega

/-- When the outer loop ends defined, no token `/..` is left: it ends by its test. -/
theorem path_shortener_loop_no_dotdot :
    ∀ (fuel : Nat) (path q : List Nat), path.length ≤ fuel →
      path_shortener_loop fuel path = some q → strstr q (str "/..") = none := by
  intro fuel
  induction fuel with
  | zero =>
    intro path q hlen h
    have hnil : path = [] := List.length_eq_zero.mp (Nat.le_zero.mp hlen)
    subst hnil
    simp [path_shortener_loop] at h
    subst h
    decide
  | succ fuel ih =>
    intro path q hlen h
    rw [path_shortener_loop] at h
    cases hd : strstr path (str "/..") with
    | none =>
      rw [hd] at h
      simp at h
      subst h
      exact hd
    | some d =>
      rw [hd] at h
      simp only [] at h
      cases hp : previous_slash_loop path d (path.length + 1) 0 none with
      | none => simp [hp] at h
      | some p =>
        rw [hp] at h
        simp only [] at h
        have hshort := path_shortener_round_length path d p hd hp
        exact ih _ q (by omega) h

/-- The result of the outer loop does not depend on the rounds left over. -/
theorem path_shortener_loop_fuel :
    ∀ (f1 f2 : Nat) (path : List Nat), path.length ≤ f1 → path.length ≤ f2 →
      path_shortener_loop f1 path = path_shortener_loop f2 path := by
  intro f1
  induction f1 with
  | zero =>
    intro f2 path h1 _
    have hnil : path = [] := List.length_eq_zero.mp (Nat.le_zero.mp h1)
    subst hnil
    cases f2 with
    | zero => rfl
    | succ f2 =>
      rw [path_shortener_loop, path_shortener_loop]
      have : strstr [] (str "/..") = none := by decide
      rw [this]
  | succ f1 ih =>
    intro f2 path h1 h2
    cases f2 with
    | zero =>
      have hnil : path = [] := List.length_eq_zero.mp (Nat.le_zero.mp h2)
      subst hnil
      rw [path_shortener_loop, path_shortener_loop]
      have : strstr [] (str "/..") = none := by decide
      rw [this]
    | succ f2 =>
      rw [path_shortener_loop, path_shortener_loop]
      cases hd : strstr path (str "/..") with
      | none => rfl
      | some d =>
        simp only []
        cases hp : previous_slash_loop path d (path.length + 1) 0 none with
        | none => rfl
        | some p =>
          simp only []
          have hshort := path_shortener_round_length path d p hd hp
          exact ih f2 _ (by omega) (by omega)

theorem path_shortener_loop_of_none (fuel : Nat) (path : List Nat)
    (h : strstr path (str "/..") = none) : path_shortener_loop fuel path = some path := by
  cases fuel with
  | zero => rfl
  | succ f => rw [path_shortener_loop, h]

/-- The result of the inner loop does not depend on the rounds left over, once there
are enough to reach the token. -/
theorem previous_slash_loop_fuel (path : List Nat) (d : Nat) (hd : path[d]? = some 47) :
    ∀ (f1 f2 covered : Nat) (prev : Option Nat), covered ≤ d →
      d + 1 - covered ≤ f1 → d + 1 - covered ≤ f2 →
      previous_slash_loop path d f1 covered prev
        = previous_slash_loop path d f2 covered prev := by
  intro f1
  induction f1 with
  | zero => intro f2 covered prev hc h1 _; omega
  | succ f1 ih =>
    intro f2 covered prev hc h1 h2
    cases f2 with
    | zero => omega
    | succ f2 =>
      rw [previous_slash_loop, previous_slash_loop, strstr_single]
      cases hk : strchr (path.drop covered) 47 with
      | none => rfl
      | some k =>
        simp only []
        by_cases hs : covered + k = d
        · rw [if_pos hs, if_pos hs]
        · rw [if_neg hs, if_neg hs]
          have hle : covered + k ≤ d := by
            by_contra hgt
            have hfirst := strchr_first _ _ _ hk (d - covered) (by omega)
            apply hfirst
            rw [List.getElem?_drop]
            have : covered + (d - covered) = d := by omega
            rw [this]
            exact hd
          exact ih f2 (covered + k + 1) _ (by omega) (by omega) (by omega)

/-- C7: one ascent removes one parent segment.  For a prefix `P`, a segment `S` without a
slash and a remainder `R`, with no `/..` in `P/S` nor in `P ++ R`, the path
`P/S/..R` becomes `P ++ R`; and `/a/b/../c` becomes `/a/c`. -/
theorem path_shortener_one_ascent (P S R : List Nat) (hS : 47 ∉ S)
    (hPS : ¬ str "/.." <:+: P ++ str "/" ++ S) (hPR : ¬ str "/.." <:+: P ++ R) :
    path_shortener (P ++ str "/" ++ S ++ str "/.." ++ R) = some (P ++ R) ∧
      path_shortener (str "/a/b/../c") = some (str "/a/c") := by
  refine ⟨?_, by decide⟩
  have hfirst := strstr_dotdot_append (P ++ str "/" ++ S) R hPS
  have hslash : str "/" = [47] := by decide
  have hshape : P ++ str "/" ++ S ++ str "/.." ++ R = P ++ 47 :: (S ++ 47 :: (46 :: 46 :: R)) := by
    rw [str_dotdot, hslash]
    simp
  have hlen : (P ++ str "/" ++ S).length = P.length + 1 + S.length := by
    rw [hslash]
    simp only [List.length_append, List.length_cons, List.length_nil]
  rw [hlen] at hfirst
  have hinner := previous_slash_loop_parent P S (46 :: 46 :: R) hS
    ((P ++ 47 :: (S ++ 47 :: (46 :: 46 :: R))).length + 1) 0 none (Nat.zero_le _)
    (by simp only [List.length_append, List.length_cons]; omega)
  have htake : (P ++ 47 :: (S ++ 47 :: (46 :: 46 :: R))).take P.length = P := by
    simp
  have hdrop : (P ++ 47 :: (S ++ 47 :: (46 :: 46 :: R))).drop (P.length + 1 + S.length + 3)
      = R := by
    have e : P ++ 47 :: (S ++ 47 :: (46 :: 46 :: R)) = (P ++ 47 :: (S ++ [47, 46, 46])) ++ R := by
      simp
    rw [e, List.drop_append_eq_append_drop]
    have l1 : (P ++ 47 :: (S ++ [47, 46, 46])).length = P.length + 1 + S.length + 3 := by
      simp only [List.length_append, List.length_cons, List.length_nil]
      omega
    rw [List.drop_of_length_le (by omega), l1]
    simp
  unfold path_shortener
  rw [hshape] at hfirst ⊢
  have hpos : (P ++ 47 :: (S ++ 47 :: (46 :: 46 :: R))).length
      = ((P ++ 47 :: (S ++ 47 :: (46 :: 46 :: R))).length - 1) + 1 := by
    simp only [List.length_append, List.length_cons]
    omega
  rw [hpos, path_shortener_loop, hfirst]
  simp only []
  rw [hinner]
  simp only []
  rw [htake, hdrop]
  exact path_shortener_loop_of_none _ _ ((strstr_eq_none_iff _ _).mpr hPR)

theorem path_shortener_one_ascent_witness :
    path_shortener (str "http://h/a" ++ str "/" ++ str "b.d" ++ str "/.." ++ str "/c/./e")
        = some (str "http://h/a" ++ str "/c/./e") ∧
      path_shortener (str "/a/b/../c") = some (str "/a/c") :=
  path_shortener_one_ascent (str "http://h/a") (str "b.d") (str "/c/./e") (by decide)
    (by rw [← strstr_eq_none_iff]; decide) (by rw [← strstr_eq_none_iff]; decide)

/-- C8: `path_shortener` is idempotent.  On every path on which it is defined, applying
it to its own result is defined and gives that result again. -/
theorem path_shortener_idempotent (path : List Nat) (hdef : (path_shortener path).isSome) :
    ∃ q, path_shortener path = some q ∧ path_shortener q = some q := by
  obtain ⟨q, hq⟩ := Option.isSome_iff_exists.mp hdef
  refine ⟨q, hq, ?_⟩
  have hnone := path_shortener_loop_no_dotdot path.length path q (Nat.le_refl _) hq
  exact path_shortener_loop_of_none _ _ hnone

theorem path_shortener_idempotent_witness :
    ∃ q, path_shortener (str "/a/b/c/../../d/../e") = some q ∧ path_shortener q = some q :=
  path_shortener_idempotent (str "/a/b/c/../../d/../e") (by decide)

/-! ## regex_link_extractor and link_extractor -/

theorem storage_safe_excludes (b : Nat) (h : storage_safe b = true) :
    b < 128 ∧ b ≠ 40 ∧ b ≠ 41 ∧ b ≠ 32 ∧ b ≠ 35 ∧ b ≠ 63 := by
  have hl : str "*-./:_+%" = [42, 45, 46, 47, 58, 95, 43, 37] := by decide
  unfold storage_safe isalnum at h
  rw [hl] at h
  simp at h
  omega

theorem mem_trim_link (subpat : List Nat) (c : Nat) (h32 : c ≠ 32) (h13 : c ≠ 13)
    (h : c ∈ subpat) : c ∈ trim_link subpat := by
  induction subpat with
  | nil => simp at h
  | cons x xs ih =>
    rw [trim_link]
    by_cases hx : x = 32 ∨ x = 13
    · rw [if_pos hx]
      rcases List.mem_cons.mp h with h | h
      · rcases hx with hx | hx
        · exact absurd (h.trans hx) h32
        · exact absurd (h.trans hx) h13
      · exact ih h
    · rw [if_neg hx]
      exact h

/-- Every call made for one captured value passes a string of storage-safe bytes. -/
theorem regex_link_extractor_body_safe (char_signed : Bool) (id : Int)
    (current_dir subpat : List Nat) (calls : List SinkCall)
    (h : regex_link_extractor_body char_signed id table current_dir subpat = some calls) :
    ∀ call ∈ calls, ∀ b ∈ call.target, storage_safe b = true := by
  unfold regex_link_extractor_body at h
  simp only [] at h
  by_cases hloc : is_local_link (trim_link subpat) = 0
  · rw [if_pos hloc] at h
    generalize (if (trim_link subpat).head? ≠ some 47 then current_dir ++ trim_link subpat
      else trim_link subpat) = sl at h
    by_cases hv : (validate_link sl).1 = 0
    · rw [if_pos hv] at h
      generalize (if (strstr (validate_link sl).2 (str "..")).isSome = true
        then path_shortener (validate_link sl).2 else some (validate_link sl).2) = sh at h
      cases sh with
      | none => cases h
      | some path =>
        simp only [] at h
        cases henc : urlencode char_signed path table with
        | none =>
          rw [henc] at h
          cases h
        | some enc =>
          rw [henc] at h
          simp only [Option.some.injEq] at h
          subst h
          intro call hcall
          rw [List.mem_singleton] at hcall
          subst hcall
          exact urlencode_storage_safe _ _ _ henc
    · rw [if_neg hv] at h
      simp only [Option.some.injEq] at h
      subst h
      intro call hcall
      cases hcall
  · rw [if_neg hloc] at h
    cases henc : urlencode char_signed (trim_link subpat) table with
    | none =>
      rw [henc] at h
      cases h
    | some enc =>
      rw [henc] at h
      simp only [Option.some.injEq] at h
      subst h
      intro call hcall
      rw [List.mem_singleton] at hcall
      subst hcall
      exact urlencode_storage_safe _ _ _ henc

theorem regex_link_extractor_loop_safe (slre_match : List Nat → List Nat → SlreResult)
    (char_signed : Bool) (id : Int) (regex current_dir markup : List Nat) :
    ∀ (fuel j : Nat),
      ∀ call ∈ (regex_link_extractor_loop slre_match char_signed id regex table current_dir
          markup fuel j).calls,
        ∀ b ∈ call.target, storage_safe b = true := by
  intro fuel
  induction fuel with
  | zero =>
    intro j call hcall
    simp [regex_link_extractor_loop] at hcall
  | succ fuel ih =>
    intro j call hcall
    rw [regex_link_extractor_loop] at hcall
    by_cases hj : j < markup.length
    · rw [if_pos hj] at hcall
      simp only [] at hcall
      by_cases hret : (slre_match regex (markup.drop j)).ret > 0
      · rw [if_pos hret] at hcall
        generalize hstep : (match (slre_match regex (markup.drop j)).cap with
          | some subpat =>
            if subpat.length ≠ 0 then
              regex_link_extractor_body char_signed id table current_dir subpat
            else some []
          | none => some []) = step at hcall
        cases step with
        | none => simp at hcall
        | some calls =>
          simp only [List.mem_append] at hcall
          rcases hcall with hcall | hcall
          · cases hcap : (slre_match regex (markup.drop j)).cap with
            | none =>
              rw [hcap] at hstep
              simp only [Option.some.injEq] at hstep
              subst hstep
              cases hcall
            | some subpat =>
              rw [hcap] at hstep
              simp only [] at hstep
              by_cases hl : subpat.length ≠ 0
              · rw [if_pos hl] at hstep
                exact regex_link_extractor_body_safe _ _ _ _ _ hstep call hcall
              · rw [if_neg hl] at hstep
                simp only [Option.some.injEq] at hstep
                subst hstep
                cases hcall
          · exact ih _ call hcall
      · rw [if_neg hret] at hcall
        cases hcall
    · rw [if_neg hj] at hcall
      cases hcall

/-- The result of the loop of `regex_link_extractor` does not depend on the rounds left
over, once there is one for every byte still to scan. -/
theorem regex_link_extractor_loop_fuel (slre_match : List Nat → List Nat → SlreResult)
    (char_signed : Bool) (id : Int) (regex tbl current_dir markup : List Nat) :
    ∀ (f1 f2 j : Nat), markup.length - j ≤ f1 → markup.length - j ≤ f2 →
      regex_link_extractor_loop slre_match char_signed id regex tbl current_dir markup f1 j
        = regex_link_extractor_loop slre_match char_signed id regex tbl current_dir markup
            f2 j := by
  intro f1
  induction f1 with
  | zero =>
    intro f2 j h1 _
    cases f2 with
    | zero => rfl
    | succ f2 =>
      rw [regex_link_extractor_loop, regex_link_extractor_loop, if_neg (by omega)]
  | succ f1 ih =>
    intro f2 j h1 h2
    cases f2 with
    | zero =>
      rw [regex_link_extractor_loop, regex_link_extractor_loop, if_neg (by omega)]
    | succ f2 =>
      rw [regex_link_extractor_loop, regex_link_extractor_loop]
      by_cases hj : j < markup.length
      · rw [if_pos hj, if_pos hj]
        simp only []
        by_cases hret : (slre_match regex (markup.drop j)).ret > 0
        · rw [if_pos hret, if_pos hret]
          rw [ih f2 (j + (slre_match regex (markup.drop j)).ret.toNat) (by omega) (by omega)]
        · rw [if_neg hret, if_neg hret]
      · rw [if_neg hj, if_neg hj]

theorem regex_link_extractor_safe (slre_match : List Nat → List Nat → SlreResult)
    (char_signed : Bool) (id : Int) (regex url markup : List Nat) :
    ∀ call ∈ (regex_link_extractor slre_match char_signed id regex url markup).calls,
      ∀ b ∈ call.target, storage_safe b = true := by
  unfold regex_link_extractor
  split
  · intro call hcall
    simp at hcall
  · exact regex_link_extractor_loop_safe _ _ _ _ _ _ _ _

/-- In every run, whatever the matcher reports, every link string passed to
`db_insert_unique_link` or to `db_insert_external_link` before the first undefined
step is made of letters, digits and `* - . / : _ + %` only.  Nothing is said of what
is passed from an undefined step on. -/
theorem link_extractor_targets_safe (slre_match : List Nat → List Nat → SlreResult)
    (char_signed : Bool) (id : Int) (url markup : List Nat) (_hurl : 47 ∈ url) :
    ∀ call ∈ (link_extractor slre_match char_signed id url markup).calls,
      (∀ b ∈ call.target, storage_safe b = true) ∧
        40 ∉ call.target ∧ 41 ∉ call.target ∧ 32 ∉ call.target ∧ 35 ∉ call.target ∧
        63 ∉ call.target ∧ ∀ b ∈ call.target, b < 128 := by
  have hsafe : ∀ call ∈ (link_extractor slre_match char_signed id url markup).calls,
      ∀ b ∈ call.target, storage_safe b = true := by
    intro call hcall
    unfold link_extractor at hcall
    simp only [] at hcall
    split at hcall
    · simp only [List.mem_append] at hcall
      rcases hcall with hcall | hcall
      · exact regex_link_extractor_safe _ _ _ _ _ _ call hcall
      · exact regex_link_extractor_safe _ _ _ _ _ _ call hcall
    · exact regex_link_extractor_safe _ _ _ _ _ _ call hcall
  intro call hcall
  have hs := hsafe call hcall
  refine ⟨hs, ?_, ?_, ?_, ?_, ?_, ?_⟩
  · exact fun hm => (storage_safe_excludes _ (hs _ hm)).2.1 rfl
  · exact fun hm => (storage_safe_excludes _ (hs _ hm)).2.2.1 rfl
  · exact fun hm => (storage_safe_excludes _ (hs _ hm)).2.2.2.1 rfl
  · exact fun hm => (storage_safe_excludes _ (hs _ hm)).2.2.2.2.1 rfl
  · exact fun hm => (storage_safe_excludes _ (hs _ hm)).2.2.2.2.2 rfl
  · exact fun b hm => (storage_safe_excludes _ (hs _ hm)).1

set_option maxRecDepth 100000 in
theorem link_extractor_targets_safe_witness :
    (link_extractor slre_match true 7 (str "http://h/a/b.html") sample_markup).calls
        = [SinkCall.db_insert_external_link (str "http://x/%28a%29"),
            SinkCall.db_insert_unique_link 7 (str "http://h/a/c+d.png")] ∧
      ∀ call ∈ (link_extractor slre_match true 7 (str "http://h/a/b.html") sample_markup).calls,
        (∀ b ∈ call.target, storage_safe b = true) ∧
          40 ∉ call.target ∧ 41 ∉ call.target ∧ 32 ∉ call.target ∧ 35 ∉ call.target ∧
          63 ∉ call.target ∧ ∀ b ∈ call.target, b < 128 :=
  ⟨by decide,
    link_extractor_targets_safe slre_match true 7 (str "http://h/a/b.html") sample_markup
      (by decide)⟩

set_option maxRecDepth 100000 in
/-- C2 (as stated, refuted): the captured `href` value `http://x/(a)` holds parentheses
and is classified as external; the loop body passes it on to `db_insert_external_link`
with the parentheses encoded, and so does `link_extractor` on the anchor. -/
theorem link_extractor_external_paren_forwarded :
    (slre_match href_regex (anchor (str "http://x/(a)"))).cap = some (str "http://x/(a)") ∧
      40 ∈ str "http://x/(a)" ∧ 41 ∈ str "http://x/(a)" ∧
      regex_link_extractor_body false 7 table (str "http://h/") (str "http://x/(a)")
        = some [SinkCall.db_insert_external_link (str "http://x/%28a%29")] ∧
      link_extractor slre_match false 7 (str "http://h/a.html") (anchor (str "http://x/(a)"))
        = ⟨[SinkCall.db_insert_external_link (str "http://x/%28a%29")], true⟩ := by
  decide

/-- C2 (amended): for a captured value that holds `(` or `)`, the loop body makes no call
when `is_local_link` classifies the trimmed value as local; otherwise its only call
is `db_insert_external_link` on the encoding of the trimmed value. -/
theorem regex_link_extractor_body_paren (char_signed : Bool) (id : Int)
    (tbl current_dir subpat : List Nat) (hparen : 40 ∈ subpat ∨ 41 ∈ subpat) :
    (is_local_link (trim_link subpat) = EXIT_SUCCESS →
        regex_link_extractor_body char_signed id tbl current_dir subpat = some []) ∧
      (is_local_link (trim_link subpat) ≠ EXIT_SUCCESS →
        regex_link_extractor_body char_signed id tbl current_dir subpat
          = (urlencode char_signed (trim_link subpat) tbl).map
              (fun encoded_link => [SinkCall.db_insert_external_link encoded_link])) := by
  constructor
  · intro hloc
    have hloc0 : is_local_link (trim_link subpat) = 0 := hloc
    have htrim : 40 ∈ trim_link subpat ∨ 41 ∈ trim_link subpat := by
      rcases hparen with h | h
      · exact Or.inl (mem_trim_link _ _ (by decide) (by decide) h)
      · exact Or.inr (mem_trim_link _ _ (by decide) (by decide) h)
    unfold regex_link_extractor_body
    simp only []
    rw [if_pos hloc0]
    have hsl : ∀ sl : List Nat, (40 ∈ sl ∨ 41 ∈ sl) → (validate_link sl).1 = EXIT_FAILURE := by
      intro sl hsl
      unfold validate_link
      rw [if_pos (by simpa [strchr_isSome_iff] using hsl)]
    have hres : (validate_link (if (trim_link subpat).head? ≠ some 47
        then current_dir ++ trim_link subpat else trim_link subpat)).1 = EXIT_FAILURE := by
      apply hsl
      by_cases hh : (trim_link subpat).head? ≠ some 47
      · rw [if_pos hh]
        rcases htrim with h | h
        · exact Or.inl (List.mem_append_right _ h)
        · exact Or.inr (List.mem_append_right _ h)
      · rw [if_neg hh]
        exact htrim
    rw [if_neg (by rw [hres]; decide)]
  · intro hloc
    have hloc0 : ¬ is_local_link (trim_link subpat) = 0 := hloc
    unfold regex_link_extractor_body
    simp only []
    rw [if_neg hloc0]
    cases urlencode char_signed (trim_link subpat) tbl <;> rfl

theorem regex_link_extractor_body_paren_witness :
    (is_local_link (trim_link (str " ../q(1)")) = EXIT_SUCCESS →
        regex_link_extractor_body true 7 table (str "http://h/a/") (str " ../q(1)") = some []) ∧
      (is_local_link (trim_link (str " ../q(1)")) ≠ EXIT_SUCCESS →
        regex_link_extractor_body true 7 table (str "http://h/a/") (str " ../q(1)")
          = (urlencode true (trim_link (str " ../q(1)")) table).map
              (fun encoded_link => [SinkCall.db_insert_external_link encoded_link])) :=
  regex_link_extractor_body_paren true 7 table (str "http://h/a/") (str " ../q(1)")
    (by decide)

/-! ## link_extractor end to end -/

theorem strrchr_isSome_of_mem (s : List Nat) (c : Nat) (h : c ∈ s) :
    ∃ k, strrchr s c = some k := by
  induction s with
  | nil => simp at h
  | cons x xs ih =>
    rw [strrchr]
    cases hk : strrchr xs c with
    | some k => exact ⟨k + 1, rfl⟩
    | none =>
      by_cases hx : x = c
      · exact ⟨0, by simp [hx]⟩
      · rcases List.mem_cons.mp h with h | h
        · exact absurd h.symm hx
        · obtain ⟨k, hk2⟩ := ih h
          rw [hk] at hk2
          cases hk2

set_option maxRecDepth 100000 in
/-- C11: on the body `<a href="/x/../y.html">` with the page URL `http://h/a/b.html`
`link_extractor` makes exactly one call, `db_insert_unique_link` with the page id and
the link `/y.html`, and stays defined. -/
theorem link_extractor_local_end_to_end (char_signed : Bool) (id : Int) :
    link_extractor slre_match char_signed id (str "http://h/a/b.html")
        (anchor (str "/x/../y.html"))
      = ⟨[SinkCall.db_insert_unique_link id (str "/y.html")], true⟩ := by
  cases char_signed <;> rfl

set_option maxRecDepth 100000 in
theorem regex_link_extractor_loop_other_href (char_signed : Bool) (id : Int)
    (current_dir : List Nat) :
    regex_link_extractor_loop slre_match char_signed id href_regex table current_dir
        (anchor (str "http://other.com/p")) (anchor (str "http://other.com/p")).length 0
      = ⟨[SinkCall.db_insert_external_link (str "http://other.com/p")], true⟩ := by
  cases char_signed <;> rfl

set_option maxRecDepth 100000 in
theorem regex_link_extractor_loop_other_src (char_signed : Bool) (id : Int)
    (current_dir : List Nat) :
    regex_link_extractor_loop slre_match char_signed id src_regex table current_dir
        (anchor (str "http://other.com/p")) (anchor (str "http://other.com/p")).length 0
      = ⟨[], true⟩ := by
  cases char_signed <;> rfl

set_option maxRecDepth 100000 in
/-- C12 (as stated, refuted): on the body `<a href="http://other.com/p">` the link passed
to `db_insert_external_link` is `http://other.com/p`, scheme included, and not
`other.com/p`. -/
theorem link_extractor_external_keeps_scheme :
    ¬ (∀ (id : Int) (url : List Nat), 47 ∈ url →
        (link_extractor slre_match false id url (anchor (str "http://other.com/p"))).calls
          = [SinkCall.db_insert_external_link (str "other.com/p")]) := by
  intro h
  have hx := h 7 (str "http://h/a/b.html") (by decide)
  revert hx
  decide

/-- C12 (amended): for every page id and page URL with a slash, on the body
`<a href="http://other.com/p">` `link_extractor` makes exactly one call,
`db_insert_external_link` (which takes no page id) with the link
`http://other.com/p`, the encoding of the whole trimmed value, and makes no call of
`db_insert_unique_link`. -/
theorem link_extractor_external_end_to_end (char_signed : Bool) (id : Int) (url : List Nat)
    (hurl : 47 ∈ url) :
    link_extractor slre_match char_signed id url (anchor (str "http://other.com/p"))
        = ⟨[SinkCall.db_insert_external_link (str "http://other.com/p")], true⟩ ∧
      urlencode char_signed (str "http://other.com/p") table
        = some (str "http://other.com/p") := by
  obtain ⟨k, hk⟩ := strrchr_isSome_of_mem url 47 hurl
  refine ⟨?_, by cases char_signed <;> decide⟩
  unfold link_extractor regex_link_extractor
  simp only [hk]
  rw [regex_link_extractor_loop_other_href, regex_link_extractor_loop_other_src]
  rfl

set_option maxRecDepth 100000 in
theorem link_extractor_external_end_to_end_witness :
    link_extractor slre_match true 7 (str "/dir/page.html") (anchor (str "http://other.com/p"))
        = ⟨[SinkCall.db_insert_external_link (str "http://other.com/p")], true⟩ ∧
      urlencode true (str "http://other.com/p") table = some (str "http://other.com/p") :=
  link_extractor_external_end_to_end true 7 (str "/dir/page.html") (by decide)

set_option maxRecDepth 100000 in
/-- C18 (the code at the failing input): the captured value of `<a href=" ">` is one
space, its trimmed form is empty and classified `NOT_VALID_URL`, and the loop body
takes the branch of the external links: `link_extractor` calls
`db_insert_external_link` with the empty link. -/
theorem link_extractor_blank_href_forwarded :
    (slre_match href_regex (anchor (str " "))).cap = some (str " ") ∧
      trim_link (str " ") = [] ∧
      is_local_link (trim_link (str " ")) = NOT_VALID_URL ∧
      regex_link_extractor_body false 7 table (str "http://h/a/") (str " ")
        = some [SinkCall.db_insert_external_link []] ∧
      link_extractor slre_match false 7 (str "http://h/a/b.html") (anchor (str " "))
        = ⟨[SinkCall.db_insert_external_link []], true⟩ := by
  decide

set_option maxRecDepth 100000 in
/-- C19 (the code at the failing input): the link `/x/....` has no segment `..`; the
token `/..` is found inside its last segment, `path_shortener` is defined on it and
leaves `..`, and `link_extractor` passes `..` to `db_insert_unique_link`. -/
theorem link_extractor_dots_segment_forwarded :
    path_shortener (str "/x/....") = some (str "..") ∧
      regex_link_extractor_body false 7 table (str "http://h/a/") (str "/x/....")
        = some [SinkCall.db_insert_unique_link 7 (str "..")] ∧
      link_extractor slre_match false 7 (str "http://h/a/b.html") (anchor (str "/x/...."))
        = ⟨[SinkCall.db_insert_unique_link 7 (str "..")], true⟩ := by
  decide

/-! ## The order of the calls -/

theorem takeWhile_append_drop (p : Nat → Bool) (l : List Nat) :
    l.takeWhile p ++ l.drop (l.takeWhile p).length = l := by
  induction l with
  | nil => rfl
  | cons x xs ih =>
    by_cases hx : p x = true
    · simp [List.takeWhile_cons, hx, ih]
    · simp [List.takeWhile_cons, hx]

theorem strstr_eq_some_iff (needle : List Nat) (hne : needle ≠ []) :
    ∀ (body : List Nat) (i : Nat),
      strstr body needle = some i ↔ first_occurrence needle body i := by
  intro body
  induction body with
  | nil =>
    intro i
    simp [strstr, hne, first_occurrence, List.prefix_nil]
  | cons x xs ih =>
    intro i
    rw [strstr]
    by_cases hp : needle.isPrefixOf (x :: xs) = true
    · have hp2 : needle <+: x :: xs := List.isPrefixOf_iff_prefix.mp hp
      rw [if_pos hp]
      constructor
      · intro h
        have h0 : i = 0 := by simpa using h.symm
        subst h0
        exact ⟨by simpa using hp2, fun j hj => absurd hj (Nat.not_lt_zero j)⟩
      · rintro ⟨_, hfirst⟩
        cases i with
        | zero => rfl
        | succ k => exact absurd (by simpa using hp2) (hfirst 0 (Nat.succ_pos k))
    · have hp2 : ¬ needle <+: x :: xs := fun e => hp (List.isPrefixOf_iff_prefix.mpr e)
      rw [if_neg hp]
      constructor
      · intro h
        cases hk : strstr xs needle with
        | none => simp [hk] at h
        | some k =>
          simp [hk] at h
          subst h
          obtain ⟨hpre, hfirst⟩ := (ih k).mp hk
          refine ⟨by simpa using hpre, ?_⟩
          intro j hj
          cases j with
          | zero => simpa using hp2
          | succ j2 => simpa using hfirst j2 (by omega)
      · rintro ⟨hpre, hfirst⟩
        cases i with
        | zero => exact absurd (by simpa using hpre) hp2
        | succ k =>
          have hk : strstr xs needle = some k :=
            (ih k).mpr ⟨by simpa using hpre, fun j hj => by
              have := hfirst (j + 1) (by omega)
              simpa using this⟩
          simp [hk]

/-- C17 (as stated, refuted): in the body `<TITLE>A<title>B</title>` the earliest open
marker of either case is at offset 0 and the earliest close marker at offset 16, so
the stated title is `A<title>B`; the code takes the lower-case open marker at offset
8 and returns `B`. -/
theorem extract_title_prefers_lower_case :
    ¬ (∀ (esc : List Nat → List Nat) (body : List Nat) (s e : Nat),
        earliest_of_either (str "<title>") (str "<TITLE>") body s →
        earliest_of_either (str "</title>") (str "</TITLE>") body e →
        s + 7 ≤ e →
        extract_title esc body = some (esc ((body.drop (s + 7)).take (e - (s + 7))))) := by
  intro h
  have hx := h id (str "<TITLE>A<title>B</title>") 0 16 (by decide) (by decide) (by decide)
  revert hx
  decide

theorem lower_else_upper_strstr (lower upper body : List Nat) (i : Nat)
    (hl : lower ≠ []) (hu : upper ≠ []) (h : lower_else_upper lower upper body i) :
    (match strstr body lower with
      | some s => some s
      | none => strstr body upper) = some i := by
  rcases h with h | ⟨hno, h⟩
  · rw [(strstr_eq_some_iff lower hl body i).mpr h]
  · rw [(strstr_eq_none_iff body lower).mpr hno]
    exact (strstr_eq_some_iff upper hu body i).mpr h

theorem absent_strstr (lower upper body : List Nat)
    (h : ¬ lower <:+: body ∧ ¬ upper <:+: body) :
    (match strstr body lower with
      | some s => some s
      | none => strstr body upper) = none := by
  rw [(strstr_eq_none_iff body lower).mpr h.1]
  exact (strstr_eq_none_iff body upper).mpr h.2

/-- C17 (amended): let `s` be the first occurrence of `<title>`, or of `<TITLE>` when the
body has no `<title>`, and `e` the first occurrence of `</title>`, or of `</TITLE>`
when the body has no `</title>`.  If both exist, `s + 7 ≤ e`, and the title between
them and its store-escaped form are each shorter than `BUFSIZ` bytes, `extract_title`
returns the store-escaped form of the bytes from `s + 7` up to `e`; if the body has
no open marker or no close marker it returns the empty text.  The three samples hold
with the identity as escaping. -/
theorem extract_title_spec (esc : List Nat → List Nat) (body : List Nat) :
    (∀ s e : Nat,
        lower_else_upper (str "<title>") (str "<TITLE>") body s →
        lower_else_upper (str "</title>") (str "</TITLE>") body e →
        s + 7 ≤ e →
        e - (s + 7) < BUFSIZ →
        (esc ((body.drop (s + 7)).take (e - (s + 7)))).length < BUFSIZ →
        extract_title esc body = some (esc ((body.drop (s + 7)).take (e - (s + 7))))) ∧
      ((¬ str "<title>" <:+: body ∧ ¬ str "<TITLE>" <:+: body) ∨
          (¬ str "</title>" <:+: body ∧ ¬ str "</TITLE>" <:+: body) →
        extract_title esc body = some []) ∧
      extract_title id (str "<title>Hello</title>") = some (str "Hello") ∧
      extract_title id (str "<TITLE>Hi</TITLE>") = some (str "Hi") ∧
      extract_title id (str "no title here") = some [] := by
  refine ⟨?_, ?_, by decide, by decide, by decide⟩
  · intro s e hs he hle hcap hesc
    have h1 := lower_else_upper_strstr _ _ body s (by decide) (by decide) hs
    have h2 := lower_else_upper_strstr _ _ body e (by decide) (by decide) he
    have hlen : ((body.drop (s + 7)).take (e - (s + 7))).length < BUFSIZ :=
      Nat.lt_of_le_of_lt (List.length_take_le _ _) hcap
    unfold extract_title
    simp only []
    rw [h1, h2]
    simp only []
    rw [if_pos hle, if_pos ⟨hlen, hesc⟩]
  · intro h
    unfold extract_title
    simp only []
    rcases h with h | h
    · rw [absent_strstr _ _ body h]
    · rw [absent_strstr _ _ body h]
      cases (match strstr body (str "<title>") with
        | some s => some s
        | none => strstr body (str "<TITLE>")) <;> rfl

/-! ## extract_redirect_location -/

theorem slre_match_op_self (c : Nat) : slre_match_op c c = true := by
  simp [slre_match_op]

theorem slre_match_plain_self (plain rest : List Nat) :
    slre_match_plain plain (plain ++ rest) = some rest := by
  induction plain with
  | nil => cases rest <;> rfl
  | cons c pat ih =>
    rw [List.cons_append, slre_match_plain, if_pos (slre_match_op_self c), ih]

/-- A match of a pattern that starts with a part free of dots starts with that part,
case ignored. -/
theorem slre_match_plain_prefix (lit pat : List Nat) (hdot : 46 ∉ lit) :
    ∀ (s tail : List Nat), slre_match_plain (lit ++ pat) s = some tail →
      lit.map tolower <+: s.map tolower := by
  induction lit with
  | nil =>
    intro s tail _
    exact List.nil_prefix
  | cons c lit ih =>
    intro s tail h
    cases s with
    | nil => simp [slre_match_plain] at h
    | cons x xs =>
      rw [List.cons_append, slre_match_plain] at h
      by_cases hop : slre_match_op c x = true
      · rw [if_pos hop] at h
        have hc : c ≠ 46 := fun e => hdot (by simp [e])
        have hlow : tolower c = tolower x := by
          simpa [slre_match_op, hc] using hop
        have hrec := ih (fun e => hdot (List.mem_cons_of_mem _ e)) xs tail h
        simp only [List.map_cons, hlow]
        exact List.cons_prefix_cons.mpr ⟨rfl, hrec⟩
      · rw [if_neg hop] at h
        cases h

theorem takeWhile_line (path rest : List Nat) (hcr : 13 ∉ path) (hlf : 10 ∉ path) :
    (path ++ 13 :: rest).takeWhile (fun c => c != 13 && c != 10) = path := by
  induction path with
  | nil => simp
  | cons x xs ih =>
    have h13 : x ≠ 13 := fun e => hcr (by simp [e])
    have h10 : x ≠ 10 := fun e => hlf (by simp [e])
    simp [List.takeWhile_cons, h13, h10,
      ih (fun e => hcr (List.mem_cons_of_mem _ e)) (fun e => hlf (List.mem_cons_of_mem _ e))]

theorem slre_match_line_here (plain buf : List Nat) (n : Nat) (run : List Nat)
    (h : slre_match_here_line plain buf = some (n, run)) :
    slre_match_line plain buf = ⟨(n : Int), some run⟩ := by
  cases buf with
  | nil =>
    unfold slre_match_here_line at h
    cases plain with
    | nil => simp [slre_match_plain] at h
    | cons c pat => simp [slre_match_plain] at h
  | cons c s =>
    rw [slre_match_line, h]

/-- A match found by the search starts somewhere in the buffer with the plain part. -/
theorem slre_match_line_found (plain : List Nat) :
    ∀ buf : List Nat, (slre_match_line plain buf).ret > 0 →
      ∃ (i : Nat) (tail : List Nat), slre_match_plain plain (buf.drop i) = some tail := by
  intro buf
  induction buf with
  | nil =>
    intro h
    simp [slre_match_line] at h
  | cons c s ih =>
    intro h
    rw [slre_match_line] at h
    cases hh : slre_match_here_line plain (c :: s) with
    | some nr =>
      unfold slre_match_here_line at hh
      cases hp : slre_match_plain plain (c :: s) with
      | none => simp [hp] at hh
      | some tail => exact ⟨0, tail, by simpa using hp⟩
    | none =>
      simp only [hh] at h
      by_cases hr : (slre_match_line plain s).ret > 0
      · obtain ⟨i, tail, hi⟩ := ih hr
        exact ⟨i + 1, tail, by simpa using hi⟩
      · rw [if_neg hr] at h
        exact absurd h hr

theorem line_group_suffix (plain : List Nat) :
    line_group.isSuffixOf (plain ++ line_group) = true ∧
      (plain ++ line_group).take ((plain ++ line_group).length - line_group.length) = plain := by
  constructor
  · rw [List.isSuffixOf_iff_suffix]
    exact List.suffix_append _ _
  · have : (plain ++ line_group).length - line_group.length = plain.length := by
      simp
    rw [this]
    simp

set_option maxRecDepth 100000 in
/-- C14: for a host of letters, digits, dots and hyphens and a non-empty path without CR
and LF, `extract_redirect_location` on the header line `Location: http://` followed
by the host, the path and CR LF returns the path; the sample gives `/new`; and on a
header without `Location: http://` in any mix of cases it returns the null pointer. -/
theorem extract_redirect_location_spec (host path : List Nat)
    (_hhost : ∀ c ∈ host, isalnum c = true ∨ c = 46 ∨ c = 45) (hpath : path ≠ [])
    (hcr : 13 ∉ path) (hlf : 10 ∉ path) :
    extract_redirect_location slre_match_location
        (str "Location: http://" ++ host ++ path ++ [13, 10]) host = some path ∧
      extract_redirect_location slre_match_location
        (str "Location: http://example.com/new" ++ [13, 10]) (str "example.com")
          = some (str "/new") ∧
      ∀ header : List Nat,
        ¬ (str "Location: http://").map tolower <:+: header.map tolower →
        extract_redirect_location slre_match_location header host = none := by
  have hsuf := line_group_suffix (str "Location: http://" ++ host)
  refine ⟨?_, by decide, ?_⟩
  · unfold extract_redirect_location slre_match_location
    simp only []
    rw [hsuf.1, if_pos rfl, hsuf.2]
    have hbuf : str "Location: http://" ++ host ++ path ++ [13, 10]
        = (str "Location: http://" ++ host) ++ (path ++ 13 :: [10]) := by simp
    have hhere : slre_match_here_line (str "Location: http://" ++ host)
        ((str "Location: http://" ++ host) ++ (path ++ 13 :: [10]))
        = some ((str "Location: http://" ++ host).length + path.length, path) := by
      unfold slre_match_here_line
      rw [slre_match_plain_self]
      simp only []
      rw [takeWhile_line path [10] hcr hlf, if_pos hpath]
    rw [hbuf, slre_match_line_here _ _ _ _ hhere]
    have hpos : path.length > 0 := List.length_pos.mpr hpath
    simp only []
    rw [if_pos (by omega)]
  · intro header hno
    unfold extract_redirect_location slre_match_location
    simp only []
    rw [hsuf.1, if_pos rfl, hsuf.2]
    by_cases hret : (slre_match_line (str "Location: http://" ++ host) header).ret > 0
    · exfalso
      obtain ⟨i, tail, hi⟩ := slre_match_line_found _ header hret
      have hpre := slre_match_plain_prefix (str "Location: http://") host (by decide)
        (header.drop i) tail hi
      apply hno
      rw [List.map_drop] at hpre
      exact List.IsInfix.trans hpre.isInfix (List.drop_suffix i _).isInfix
    · rw [if_neg hret]

set_option maxRecDepth 100000 in
theorem extract_redirect_location_spec_witness :
    extract_redirect_location slre_match_location
        (str "Location: http://" ++ str "www.my-host.org" ++ str "/a/b.html?x=1" ++ [13, 10])
        (str "www.my-host.org") = some (str "/a/b.html?x=1") ∧
      extract_redirect_location slre_match_location
        (str "Location: http://example.com/new" ++ [13, 10]) (str "example.com")
          = some (str "/new") ∧
      ∀ header : List Nat,
        ¬ (str "Location: http://").map tolower <:+: header.map tolower →
        extract_redirect_location slre_match_location header (str "www.my-host.org") = none :=
  extract_redirect_location_spec (str "www.my-host.org") (str "/a/b.html?x=1") (by decide)
    (by decide) (by decide) (by decide)

set_option maxRecDepth 100000 in
/-- C15 (the code at the failing input): for the host `example.com` a `Location` line
whose host is `example.com.evil.org`, and one whose host is `exampleXcom`, are both
matched: the function returns `.evil.org/x` and `/x`, not the null pointer.  A line
with the host `other.org` gives the null pointer. -/
theorem extract_redirect_location_other_host :
    extract_redirect_location slre_match_location
        (str "Location: http://example.com.evil.org/x" ++ [13, 10]) (str "example.com")
          = some (str ".evil.org/x") ∧
      extract_redirect_location slre_match_location
        (str "Location: http://exampleXcom/x" ++ [13, 10]) (str "example.com")
          = some (str "/x") ∧
      extract_redirect_location slre_match_location
        (str "Location: http://other.org/x" ++ [13, 10]) (str "example.com") = none := by
  decide

/-! ## extract_response_code -/

theorem takeWhile_append_of_all (p : Nat → Bool) (a r : List Nat)
    (ha : ∀ c ∈ a, p c = true) (hr : ∀ c ∈ r.head?, p c = false) :
    (a ++ r).takeWhile p = a := by
  induction a with
  | nil =>
    cases r with
    | nil => rfl
    | cons c r2 =>
      have : p c = false := hr c (by simp)
      simp [List.takeWhile_cons, this]
  | cons x xs ih =>
    have hx : p x = true := ha x (by simp)
    simp [List.takeWhile_cons, hx, ih (fun c hc => ha c (List.mem_cons_of_mem _ hc))]

theorem head_drop_takeWhile (p : Nat → Bool) (l : List Nat) :
    ∀ c ∈ (l.drop (l.takeWhile p).length).head?, p c = false := by
  induction l with
  | nil => simp
  | cons x xs ih =>
    by_cases hx : p x = true
    · simpa [List.takeWhile_cons, hx] using ih
    · intro c hc
      simp [List.takeWhile_cons, hx] at hc
      subst hc
      simpa using hx

theorem slre_match_plain_of_lower (pat : List Nat) :
    ∀ (head rest : List Nat), pat.map tolower = head.map tolower →
      slre_match_plain pat (head ++ rest) = some rest := by
  induction pat with
  | nil =>
    intro head rest h
    have : head = [] := by simpa using h.symm
    subst this
    cases rest <;> rfl
  | cons c pat ih =>
    intro head rest h
    cases head with
    | nil => simp at h
    | cons x xs =>
      simp only [List.map_cons, List.cons.injEq] at h
      have hop : slre_match_op c x = true := by simp [slre_match_op, h.1]
      rw [List.cons_append, slre_match_plain, if_pos hop]
      exact ih xs rest h.2

theorem slre_match_plain_split (lit : List Nat) (hdot : 46 ∉ lit) :
    ∀ (s tail : List Nat), slre_match_plain lit s = some tail →
      ∃ head, s = head ++ tail ∧ head.map tolower = lit.map tolower := by
  induction lit with
  | nil =>
    intro s tail h
    have : s = tail := by
      cases s <;> simpa [slre_match_plain] using h
    exact ⟨[], by simpa using this, rfl⟩
  | cons c lit ih =>
    intro s tail h
    cases s with
    | nil => simp [slre_match_plain] at h
    | cons x xs =>
      rw [slre_match_plain] at h
      by_cases hop : slre_match_op c x = true
      · rw [if_pos hop] at h
        have hc : c ≠ 46 := fun e => hdot (by simp [e])
        have hlow : tolower c = tolower x := by
          simpa [slre_match_op, hc] using hop
        obtain ⟨head, hs, hl⟩ := ih (fun e => hdot (List.mem_cons_of_mem _ e)) xs tail h
        exact ⟨x :: head, by simp [hs], by simp [hl, hlow]⟩
      · rw [if_neg hop] at h
        cases h

/-- What the modelled matcher accepts at an offset is a match in the stated sense. -/
theorem slre_match_here_status_sound (header : List Nat) (i n : Nat) (digits : List Nat)
    (h : slre_match_here_status (header.drop i) = some (n, digits)) :
    status_match_at 1 header i digits ∧ 0 < n := by
  unfold slre_match_here_status at h
  cases hp : slre_match_plain (str "HTTP/1") (header.drop i) with
  | none => simp [hp] at h
  | some tail =>
    rw [hp] at h
    simp only [] at h
    obtain ⟨head, hs, hl⟩ := slre_match_plain_split (str "HTTP/1") (by decide) _ tail hp
    by_cases hv : tail.takeWhile (fun c => !isspace c) ≠ []
    · rw [if_pos hv] at h
      have hsplit := takeWhile_append_drop (fun c => !isspace c) tail
      cases hd : tail.drop (tail.takeWhile (fun c => !isspace c)).length with
      | nil => simp [hd] at h
      | cons c rest =>
        rw [hd] at h
        simp only [] at h
        by_cases hc : c = 32 ∧ rest.takeWhile isdigit ≠ []
        · rw [if_pos hc] at h
          simp only [Option.some.injEq, Prod.mk.injEq] at h
          obtain ⟨hn, hdig⟩ := h
          refine ⟨⟨head, tail.takeWhile (fun c => !isspace c),
            rest.drop (rest.takeWhile isdigit).length, ?_, hl, ?_, ?_, ?_, ?_, ?_⟩, by omega⟩
          · rw [hs]
            have hrest := takeWhile_append_drop isdigit rest
            rw [← hdig]
            conv_lhs => rw [← hsplit, hd, hc.1, ← hrest]
            simp
          · exact Nat.succ_le_of_lt (List.length_pos.mpr hv)
          · intro x hx
            have := List.mem_takeWhile_imp hx
            simpa using this
          · rw [← hdig]
            exact hc.2
          · intro x hx
            rw [← hdig] at hx
            exact List.mem_takeWhile_imp hx
          · exact head_drop_takeWhile isdigit rest
        · rw [if_neg hc] at h
          cases h
    · rw [if_neg hv] at h
      cases h

/-- A match in the stated sense is accepted by the modelled matcher, with the same
digits. -/
theorem slre_match_here_status_complete (header : List Nat) (i : Nat) (digits : List Nat)
    (h : status_match_at 1 header i digits) :
    ∃ n, slre_match_here_status (header.drop i) = some (n, digits) := by
  obtain ⟨head, version, rest, hs, hl, hmin, hver, hne, hdig, hrest⟩ := h
  have hs2 : header.drop i = head ++ (version ++ 32 :: (digits ++ rest)) := by
    rw [hs]
    simp
  have hplain := slre_match_plain_of_lower (str "HTTP/1") head
    (version ++ 32 :: (digits ++ rest)) hl.symm
  have hv : (version ++ 32 :: (digits ++ rest)).takeWhile (fun c => !isspace c) = version :=
    takeWhile_append_of_all _ version _ (fun c hc => by simp [hver c hc])
      (fun c hc => by
        simp at hc
        subst hc
        decide)
  have hd : (digits ++ rest).takeWhile isdigit = digits :=
    takeWhile_append_of_all _ digits rest hdig hrest
  have hvne : version ≠ [] := by
    intro e
    rw [e] at hmin
    simp at hmin
  unfold slre_match_here_status
  rw [hs2, hplain]
  simp only []
  rw [hv, if_pos hvne]
  have hdrop : (version ++ 32 :: (digits ++ rest)).drop version.length
      = 32 :: (digits ++ rest) := by
    rw [List.drop_append_eq_append_drop]
    simp
  rw [hdrop]
  simp only []
  rw [hd, if_pos ⟨trivial, hne⟩]
  exact ⟨_, rfl⟩

theorem slre_match_here_status_nil : slre_match_here_status [] = none := by decide

theorem slre_match_status_search_none :
    ∀ buf : List Nat, (∀ i, slre_match_here_status (buf.drop i) = none) →
      slre_match_status_search buf = ⟨-1, none⟩ := by
  intro buf
  induction buf with
  | nil => intro _; rfl
  | cons c s ih =>
    intro h
    have h0 : slre_match_here_status (c :: s) = none := by simpa using h 0
    have hrec := ih (fun i => by simpa using h (i + 1))
    rw [slre_match_status_search, h0]
    simp only [hrec]
    rfl

theorem slre_match_status_search_first :
    ∀ (i : Nat) (buf : List Nat) (n : Nat) (digits : List Nat), 0 < n →
      slre_match_here_status (buf.drop i) = some (n, digits) →
      (∀ j, j < i → slre_match_here_status (buf.drop j) = none) →
      slre_match_status_search buf = ⟨((i + n : Nat) : Int), some digits⟩ := by
  intro i
  induction i with
  | zero =>
    intro buf n digits _ h _
    cases buf with
    | nil =>
      rw [List.drop_nil, slre_match_here_status_nil] at h
      cases h
    | cons c s =>
      rw [List.drop_zero] at h
      rw [slre_match_status_search, h]
      simp
  | succ i ih =>
    intro buf n digits hn h hfirst
    cases buf with
    | nil =>
      rw [List.drop_nil, slre_match_here_status_nil] at h
      cases h
    | cons c s =>
      have h0 : slre_match_here_status (c :: s) = none := by simpa using hfirst 0 (by omega)
      have hrec := ih s n digits hn (by simpa using h)
        (fun j hj => by simpa using hfirst (j + 1) (by omega))
      rw [slre_match_status_search, h0]
      simp only [hrec]
      rw [if_pos (by omega)]
      congr 1
      omega

theorem slre_match_status_search_pos :
    ∀ (buf : List Nat) (i n : Nat) (digits : List Nat),
      slre_match_here_status (buf.drop i) = some (n, digits) →
      (slre_match_status_search buf).ret > 0 := by
  intro buf
  induction buf with
  | nil =>
    intro i n digits h
    rw [List.drop_nil, slre_match_here_status_nil] at h
    cases h
  | cons c s ih =>
    intro i n digits h
    rw [slre_match_status_search]
    cases hh : slre_match_here_status (c :: s) with
    | some nr =>
      obtain ⟨n0, d0⟩ := nr
      have hpos : 0 < n0 :=
        (slre_match_here_status_sound (c :: s) 0 n0 d0 (by simpa using hh)).2
      simp only []
      omega
    | none =>
      cases i with
      | zero =>
        rw [List.drop_zero, hh] at h
        cases h
      | succ i2 =>
        have hrec := ih i2 n digits (by simpa using h)
        simp only []
        rw [if_pos hrec]
        simp only []
        omega

theorem slre_match_status_search_found :
    ∀ buf : List Nat, (slre_match_status_search buf).ret > 0 →
      ∃ (i n : Nat) (digits : List Nat),
        slre_match_here_status (buf.drop i) = some (n, digits) ∧
          (∀ j, j < i → slre_match_here_status (buf.drop j) = none) ∧
          (slre_match_status_search buf).cap = some digits := by
  intro buf
  induction buf with
  | nil =>
    intro h
    simp [slre_match_status_search] at h
  | cons c s ih =>
    intro h
    rw [slre_match_status_search] at h ⊢
    cases hh : slre_match_here_status (c :: s) with
    | some nr =>
      obtain ⟨n0, d0⟩ := nr
      exact ⟨0, n0, d0, by simpa using hh, fun j hj => absurd hj (Nat.not_lt_zero j), rfl⟩
    | none =>
      rw [hh] at h
      simp only [] at h ⊢
      by_cases hr : (slre_match_status_search s).ret > 0
      · obtain ⟨i, n, digits, hi, hfirst, hcap⟩ := ih hr
        rw [if_pos hr]
        refine ⟨i + 1, n, digits, by simpa using hi, ?_, hcap⟩
        intro j hj
        cases j with
        | zero => simpa using hh
        | succ j2 => simpa using hfirst j2 (by omega)
      · rw [if_neg hr] at h
        exact absurd h hr

theorem atoi_digits_eq_foldl (digits : List Nat) (hdig : ∀ c ∈ digits, isdigit c = true) :
    ∀ acc : Nat, atoi_digits acc digits = digits.foldl (fun a c => 10 * a + (c - 48)) acc := by
  induction digits with
  | nil => intro acc; rfl
  | cons c rest ih =>
    intro acc
    rw [atoi_digits, if_pos (hdig c (by simp)), List.foldl_cons]
    exact ih (fun x hx => hdig x (List.mem_cons_of_mem _ hx)) _

/-- On a run of digits `atoi` gives the decimal value, if an `int` can hold it. -/
theorem atoi_of_digits (digits : List Nat) (hne : digits ≠ [])
    (hdig : ∀ c ∈ digits, isdigit c = true) :
    atoi digits
      = if decimal_value digits ≤ 2147483647 then some ((decimal_value digits : Nat) : Int)
        else none := by
  cases digits with
  | nil => exact absurd rfl hne
  | cons c rest =>
    have hc : isdigit c = true := hdig c (by simp)
    have hcr : 48 ≤ c ∧ c ≤ 57 := by simpa [isdigit] using hc
    have hsp : isspace c = false := by
      simp [isspace]
      omega
    have h45 : ¬ c = 45 := by omega
    have h43 : ¬ c = 43 := by omega
    unfold atoi
    rw [List.dropWhile_cons_of_neg (by simp [hsp])]
    simp only [h45, h43, if_false]
    rw [atoi_digits_eq_foldl (c :: rest) hdig 0]
    unfold decimal_value
    by_cases hle : (c :: rest).foldl (fun a c => 10 * a + (c - 48)) 0 ≤ 2147483647
    · rw [if_pos hle, if_pos (by omega)]
    · rw [if_neg hle, if_neg (by omega)]

theorem slre_match_status_eq (buf : List Nat) :
    slre_match_status status_regex buf = slre_match_status_search buf := by
  unfold slre_match_status
  rw [if_pos rfl]

theorem extract_response_code_first (header : List Nat) (i : Nat) (digits : List Nat)
    (hm : status_match_at 1 header i digits)
    (hfirst : ∀ j, j < i → ∀ d, ¬ status_match_at 1 header j d) :
    extract_response_code slre_match_status header = atoi digits := by
  obtain ⟨n, hn⟩ := slre_match_here_status_complete header i digits hm
  have hpos := (slre_match_here_status_sound header i n digits hn).2
  have hnone : ∀ j, j < i → slre_match_here_status (header.drop j) = none := by
    intro j hj
    cases hh : slre_match_here_status (header.drop j) with
    | none => rfl
    | some nr =>
      obtain ⟨n0, d0⟩ := nr
      exact absurd (slre_match_here_status_sound header j n0 d0 hh).1 (hfirst j hj d0)
  have hsearch := slre_match_status_search_first i header n digits hpos hn hnone
  unfold extract_response_code
  simp only []
  rw [slre_match_status_eq, hsearch]
  simp only []
  rw [if_pos (by omega)]

set_option maxRecDepth 100000 in
/-- C16 (as stated, refuted): the header `HTTP/1 200 OK` has at offset 0 a match of the
stated pattern with no byte between `HTTP/1` and the space, and the code returns `-1`,
not `200`.  A digit run that an `int` cannot hold leaves the result of `atoi`
undefined. -/
theorem extract_response_code_needs_version :
    ¬ (∀ (header : List Nat) (i : Nat) (digits : List Nat),
        status_match_at 0 header i digits →
        (∀ j, j < i → ∀ d, ¬ status_match_at 0 header j d) →
        extract_response_code slre_match_status header
          = some ((decimal_value digits : Nat) : Int)) ∧
      extract_response_code slre_match_status (str "HTTP/1.1 4294967296 OK") = none := by
  refine ⟨?_, by decide⟩
  intro h
  have hx := h (str "HTTP/1 200 OK") 0 (str "200")
    ⟨str "HTTP/1", [], str " OK", by decide, by decide, by decide, by decide, by decide,
      by decide, by decide⟩
    (fun j hj => absurd hj (Nat.not_lt_zero j))
  revert hx
  decide

set_option maxRecDepth 100000 in
/-- C16 (amended): a match is `HTTP/1` in either case, one or more bytes that are not
white space, one space and the whole run of digits that follows.  For every header,
if its first match has a digit run whose value fits an `int`,
`extract_response_code` returns that value.  For every header whose first match, if
it has one, has a digit run whose value fits an `int`, it returns `-1` exactly when
the header has no match.  `HTTP/1.1 200 OK` gives 200. -/
theorem extract_response_code_spec :
    (∀ (header : List Nat) (i : Nat) (digits : List Nat),
        status_match_at 1 header i digits →
        (∀ j, j < i → ∀ d, ¬ status_match_at 1 header j d) →
        decimal_value digits ≤ 2147483647 →
        extract_response_code slre_match_status header
          = some ((decimal_value digits : Nat) : Int)) ∧
      (∀ header : List Nat,
        (∀ (i : Nat) (digits : List Nat), status_match_at 1 header i digits →
          (∀ j, j < i → ∀ d, ¬ status_match_at 1 header j d) →
          decimal_value digits ≤ 2147483647) →
        (extract_response_code slre_match_status header = some (-1) ↔
          ¬ ∃ (i : Nat) (digits : List Nat), status_match_at 1 header i digits)) ∧
      extract_response_code slre_match_status (str "HTTP/1.1 200 OK") = some 200 := by
  have hvalue : ∀ (header : List Nat) (i : Nat) (digits : List Nat),
      status_match_at 1 header i digits →
      (∀ j, j < i → ∀ d, ¬ status_match_at 1 header j d) →
      decimal_value digits ≤ 2147483647 →
      extract_response_code slre_match_status header
        = some ((decimal_value digits : Nat) : Int) := by
    intro header i digits hm hfirst hle
    have hm2 := hm
    obtain ⟨_, _, _, _, _, _, _, hne, hdig, _⟩ := hm2
    rw [extract_response_code_first header i digits hm hfirst,
      atoi_of_digits digits hne hdig, if_pos hle]
  refine ⟨hvalue, ?_, by decide⟩
  intro header hfits
  constructor
  · intro hres hex
    obtain ⟨i, digits, hm⟩ := hex
    obtain ⟨n, hn⟩ := slre_match_here_status_complete header i digits hm
    have hret := slre_match_status_search_pos header i n digits hn
    obtain ⟨i2, n2, d2, hh2, hfirst2, _⟩ := slre_match_status_search_found header hret
    have hm2 := (slre_match_here_status_sound header i2 n2 d2 hh2).1
    have hf2 : ∀ j, j < i2 → ∀ d, ¬ status_match_at 1 header j d := by
      intro j hj d hmd
      obtain ⟨nj, hnj⟩ := slre_match_here_status_complete header j d hmd
      rw [hfirst2 j hj] at hnj
      cases hnj
    have hval := hvalue header i2 d2 hm2 hf2 (hfits i2 d2 hm2 hf2)
    rw [hval] at hres
    have := Option.some.inj hres
    omega
  · intro hno
    have hnone : ∀ i, slre_match_here_status (header.drop i) = none := by
      intro i
      cases hh : slre_match_here_status (header.drop i) with
      | none => rfl
      | some nr =>
        obtain ⟨n0, d0⟩ := nr
        exact absurd ⟨i, d0, (slre_match_here_status_sound header i n0 d0 hh).1⟩ hno
    unfold extract_response_code
    simp only []
    rw [slre_match_status_eq, slre_match_status_search_none header hnone]
    rfl

/-! ## description_extractor -/

theorem strstr_eq_some_zero_iff (s needle : List Nat) :
    strstr s needle = some 0 ↔ needle.isPrefixOf s = true := by
  cases s with
  | nil =>
    cases needle with
    | nil => simp [strstr]
    | cons a n => simp [strstr, List.isPrefixOf]
  | cons x xs =>
    rw [strstr]
    by_cases hp : needle.isPrefixOf (x :: xs) = true
    · simp [hp]
    · simp only [hp, Bool.false_eq_true, if_false, iff_false]
      cases strstr xs needle <;> simp

/-- Whether a needle without a newline starts a line is decided inside the line. -/
theorem isPrefixOf_line (needle : List Nat) (hn : 10 ∉ needle) :
    ∀ (l rest : List Nat), needle.isPrefixOf (l ++ 10 :: rest) = needle.isPrefixOf l := by
  induction needle with
  | nil => intro l rest; simp [List.isPrefixOf]
  | cons a n ih =>
    intro l rest
    have ha : a ≠ 10 := fun e => hn (by simp [e])
    cases l with
    | nil => simp [List.isPrefixOf, ha]
    | cons x xs =>
      have hrec := ih (fun e => hn (List.mem_cons_of_mem _ e)) xs rest
      simp only [List.cons_append, List.isPrefixOf]
      exact congrArg (fun b => (a == x && b)) hrec

theorem strstr_newline_line (l rest : List Nat) (hl : 10 ∉ l) :
    strstr (l ++ 10 :: rest) [10] = some l.length := by
  rw [strstr_single, strchr_append_of_not_mem _ _ _ hl]
  simp [strchr]

theorem drop_take_line (l rest : List Nat) (h7 : 7 ≤ l.length) :
    ((l ++ 10 :: rest).drop 7).take (l.length - 7) = l.drop 7 := by
  rw [List.drop_append_eq_append_drop]
  have h0 : 7 - l.length = 0 := by omega
  rw [h0, List.drop_zero]
  exact List.take_left' (by simp)

theorem drop_line (l rest : List Nat) : (l ++ 10 :: rest).drop (l.length + 1) = rest := by
  have e : l ++ 10 :: rest = (l ++ [10]) ++ rest := by simp
  rw [e]
  exact List.drop_left' (by simp)

/-- The loop of `description_extractor` on a text made of newline-terminated lines and
an unterminated rest is the reference scan of the lines. -/
theorem description_extractor_loop_lines :
    ∀ (lines : List (List Nat)) (tail : List Nat) (fuel : Nat) (data : Option (List Nat)),
      (∀ l ∈ lines, 10 ∉ l) → 10 ∉ tail → (join_lines lines ++ tail).length ≤ fuel →
      description_extractor_loop fuel (join_lines lines ++ tail) data
        = description_scan lines data := by
  intro lines
  induction lines with
  | nil =>
    intro tail fuel data _ htail _
    simp only [join_lines, List.flatMap_nil, List.nil_append, description_scan]
    cases fuel with
    | zero => rfl
    | succ f =>
      rw [description_extractor_loop, strstr_single, (strchr_eq_none_iff tail 10).mpr htail]
  | cons l ls ih =>
    intro tail fuel data hlines htail hfuel
    have hl : 10 ∉ l := hlines l (by simp)
    have hls : ∀ x ∈ ls, 10 ∉ x := fun x hx => hlines x (List.mem_cons_of_mem _ hx)
    have hshape : join_lines (l :: ls) ++ tail = l ++ 10 :: (join_lines ls ++ tail) := by
      simp [join_lines]
    rw [hshape] at hfuel ⊢
    have hlen : (l ++ 10 :: (join_lines ls ++ tail)).length
        = l.length + 1 + (join_lines ls ++ tail).length := by
      simp only [List.length_append, List.length_cons]
      omega
    cases fuel with
    | zero => omega
    | succ f =>
      rw [description_extractor_loop, strstr_newline_line l _ hl, description_scan]
      simp only []
      by_cases hnil : l = []
      · subst hnil
        simp only [List.length_nil, if_true, List.nil_append, List.drop_succ_cons,
          List.drop_zero]
        exact ih tail f data hls htail (by
          simp only [List.nil_append, List.length_cons] at hfuel
          omega)
      · have hpos : ¬ l.length = 0 := fun e => hnil (List.length_eq_zero.mp e)
        rw [if_neg hpos, if_neg hnil]
        by_cases hsp : (str "       ").isPrefixOf l = true
        · have hsp2 : strstr (l ++ 10 :: (join_lines ls ++ tail)) (str "       ") = some 0 := by
            rw [strstr_eq_some_zero_iff, isPrefixOf_line _ (by decide)]
            exact hsp
          have h7 : 7 ≤ l.length := by
            have := (List.isPrefixOf_iff_prefix.mp hsp).length_le
            simpa [str] using this
          rw [if_pos hsp2, if_pos hsp, drop_take_line l _ h7, drop_line]
          exact ih tail f _ hls htail (by omega)
        · have hsp2 : ¬ strstr (l ++ 10 :: (join_lines ls ++ tail)) (str "       ")
              = some 0 := by
            rw [strstr_eq_some_zero_iff, isPrefixOf_line _ (by decide)]
            exact hsp
          rw [if_neg hsp2, if_neg hsp]

set_option maxRecDepth 100000 in
/-- C20 (as stated, refuted): in a body whose first line after the marker is indented by
eight spaces, that line does not end the scan: its bytes after the first seven, the
eighth space included, are handed to the store. -/
theorem description_extractor_eight_spaces :
    ¬ (∀ (esc : List Nat → List Nat) (id : Int) (body : List Nat) (k : Nat)
        (line rest : List Nat),
        first_occurrence (str "DESCRIPTION" ++ [10]) body k →
        body.drop (k + 12) = line ++ [10] ++ rest → 10 ∉ line →
        (str "        ").isPrefixOf line = true →
        description_extractor esc id body = some none) ∧
      description_extractor id 7 (str "DESCRIPTION" ++ [10] ++ str "        x" ++ [10])
        = some (some (7, str " x")) := by
  refine ⟨?_, by decide⟩
  intro h
  have hx := h id 7 (str "DESCRIPTION" ++ [10] ++ str "        x" ++ [10]) 0
    (str "        x") [] (by decide) (by decide) (by decide) (by decide)
  revert hx
  decide

/-- C20 (amended): without the marker nothing is handed to the store.  With the marker,
the lines after its first occurrence are scanned in order: a blank line is skipped, a
line that starts with seven spaces gives all its bytes after the first seven (further
spaces included), any other line ends the scan.  When at least one line has been
appended, the store gets the escaped form of the concatenation with every `'` and `"`
replaced by a space, and nothing when the concatenation is empty. -/
theorem description_extractor_spec (esc : List Nat → List Nat) (id : Int) (body : List Nat) :
    (¬ (str "DESCRIPTION" ++ [10]) <:+: body → description_extractor esc id body = some none) ∧
      ∀ (k : Nat) (lines : List (List Nat)) (tail data : List Nat),
        first_occurrence (str "DESCRIPTION" ++ [10]) body k →
        body.drop (k + 12) = join_lines lines ++ tail →
        (∀ l ∈ lines, 10 ∉ l) → 10 ∉ tail →
        description_scan lines none = some data →
        description_extractor esc id body
          = if data = [] then some none
            else some (some (id, esc (data.map (fun c => if c = 39 ∨ c = 34 then 32 else c)))) := by
  constructor
  · intro hno
    unfold description_extractor
    rw [(strstr_eq_none_iff body _).mpr hno]
  · intro k lines tail data hk hbody hlines htail hscan
    have hstr := (strstr_eq_some_iff (str "DESCRIPTION" ++ [10]) (by decide) body k).mpr hk
    have hloop := description_extractor_loop_lines lines tail body.length none hlines htail
      (by
        rw [← hbody, List.length_drop]
        omega)
    unfold description_extractor
    rw [hstr]
    simp only []
    rw [hbody, hloop, hscan]
    simp only []
    by_cases hd : data = []
    · subst hd
      simp
    · have hpos : data.length > 0 := List.length_pos.mpr hd
      rw [if_pos hpos, if_neg hd]

/-! ## Samples of the amended statements -/

set_option maxRecDepth 100000 in
theorem extract_title_spec_witness :
    extract_title id (str "<p><TITLE>Old</TITLE><title>A page</title>")
      = some (str "A page") :=
  (extract_title_spec id (str "<p><TITLE>Old</TITLE><title>A page</title>")).1 21 34
    (by decide) (by decide) (by decide) (by decide) (by decide)

set_option maxRecDepth 100000 in
theorem extract_response_code_spec_witness :
    extract_response_code slre_match_status (str "HTTP/1.0 404 Not Found") = some 404 :=
  extract_response_code_spec.1 (str "HTTP/1.0 404 Not Found") 0 (str "404")
    ⟨str "HTTP/1", str ".0", str " Not Found", by decide, by decide, by decide, by decide,
      by decide, by decide, by decide⟩
    (fun j hj => absurd hj (Nat.not_lt_zero j)) (by decide)

set_option maxRecDepth 100000 in
theorem description_extractor_spec_witness :
    description_extractor id 7
        (str "<pre>DESCRIPTION" ++ [10] ++ str "       A " ++ [34] ++ str "tool" ++ [34, 10]
          ++ [10] ++ str "         for pages" ++ [10] ++ str "OPTIONS" ++ [10] ++ str "end")
      = some (some (7, str "A  tool   for pages")) :=
  Eq.trans
    ((description_extractor_spec id 7
        (str "<pre>DESCRIPTION" ++ [10] ++ str "       A " ++ [34] ++ str "tool" ++ [34, 10]
          ++ [10] ++ str "         for pages" ++ [10] ++ str "OPTIONS" ++ [10] ++ str "end")).2 5
      [str "       A " ++ [34] ++ str "tool" ++ [34], [], str "         for pages",
        str "OPTIONS"]
      (str "end") (str "A " ++ [34] ++ str "tool" ++ [34] ++ str "  for pages")
      (by decide) (by decide) (by decide) (by decide) (by decide))
    (by decide)

/-! ## The classification and the encoding inside link_extractor -/

set_option maxRecDepth 100000 in
/-- C3 (the code at the failing input): the links `Http://other.com/p` and `Www.x` are
longer than 4 bytes, do not start with a slash and have a head equal to `http` or
`www.` when case is ignored; `is_local_link` returns `EXIT_SUCCESS` for both, and
`link_extractor` passes the first to `db_insert_unique_link`, resolved against the
directory of the page. -/
theorem is_local_link_mixed_case_local :
    (str "Http://other.com/p").length > 4 ∧
      (str "Http://other.com/p").head? ≠ some 47 ∧
      ((str "Http://other.com/p").take 4).map tolower = str "http" ∧
      is_local_link (str "Http://other.com/p") = EXIT_SUCCESS ∧
      ((str "Www.x").take 4).map tolower = str "www." ∧
      is_local_link (str "Www.x") = EXIT_SUCCESS ∧
      link_extractor slre_match false 7 (str "http://h/a/b.html")
          (anchor (str "Http://other.com/p"))
        = ⟨[SinkCall.db_insert_unique_link 7 (str "http://h/a/Http://other.com/p")], true⟩ := by
  decide

set_option maxRecDepth 100000 in
/-- C1 (the code at the failing input): where `char` is signed, the byte `0xE9` of the
link `/` `0xE9` is the value `-23` and `urlencode` reads `table[-23]`, outside the
array: what the code passes to the sink for this link is not fixed by the program.
Where `char` is unsigned the link is passed on as `/%E9`. -/
theorem link_extractor_high_byte_undefined :
    char_value true 233 = -23 ∧
      table_read table (char_value true 233) = none ∧
      urlencode true [47, 233] table = none ∧
      regex_link_extractor_body true 7 table (str "http://h/a/") [47, 233] = none ∧
      link_extractor slre_match true 7 (str "http://h/a/b.html") (anchor [47, 233])
        = ⟨[], false⟩ ∧
      link_extractor slre_match false 7 (str "http://h/a/b.html") (anchor [47, 233])
        = ⟨[SinkCall.db_insert_unique_link 7 (str "/%E9")], true⟩ := by
  decide

end WebsiteDownloader
